import Mathlib

/-! SPSCQueue: a verification development

A shallow embedding of `include/SPSCQueue.h` (class `SPSCQueue<T>`), the
single-producer/single-consumer ring buffer, and theorems about it.

Modelling conventions.

* `size_t` is an unsigned 64-bit integer: a `Nat` below `SIZE_MOD = 2 ^ 64`,
  with every arithmetic operation of the source reduced modulo `SIZE_MOD`.
* The raw storage `buffer_` is a list of slots.  A slot is `none` when it
  holds no live object (raw memory, or an object whose destructor has run)
  and `some v` when it holds the live object `v`.
* Atomic loads and stores are plain reads and writes: the model is the
  sequential semantics, each member function run to completion.
* The payload constructor, move assignment and destructor are total and do
  not fail; `emplace` receives the value its arguments construct.
* An access outside the allocation, or a move from a slot that holds no
  live object, is undefined behaviour in the source.  The model makes them
  inert (the storage is left as it is, the output keeps its value).
* `sizeof(T)` and the behaviour of `operator new[]` are not in the header:
  the constructor takes them as parameters.  The allocation size
  `sizeof(T) * capacity` is computed in `size_t`, so it wraps modulo
  `SIZE_MOD`, and the storage holds the whole slots that fit in it.
-/

namespace SPSC

/-- The modulus of `size_t` arithmetic (64-bit target). -/
def SIZE_MOD : Nat := 2 ^ 64

/-- The member variables of `SPSCQueue<T>`, in declaration order. -/
structure SPSCQueue (T : Type) where
  capacityMask_ : Nat
  buffer_ : List (Option T)
  head_ : Nat
  headCached_ : Nat
  tail_ : Nat
  tailCached_ : Nat

/-- Outcome of running the constructor `SPSCQueue(size_t capacity)`.
`invalid_argument n` is the `std::invalid_argument` exception, thrown from
the constructor body; `n` is the number of slots the member initialiser of
`buffer_` had already allocated when the body ran.  `bad_alloc` is the
`std::bad_alloc` exception of `operator new[]`, thrown from that member
initialiser, before the body runs. -/
inductive Constructed (T : Type) where
  | ok (q : SPSCQueue T)
  | invalid_argument (allocatedSlots : Nat)
  | bad_alloc

namespace SPSCQueue

variable {T : Type}

/-- The constructor (SPSCQueue.h lines 10-22).  `sizeofT` is `sizeof(T)`, and
`alloc n` tells whether `operator new[](n)` returns storage of `n` bytes
(`true`) or throws `std::bad_alloc` (`false`).  The member initialisers run
first: `capacityMask_(capacity - 1)` in `size_t` arithmetic, then
`operator new[](sizeof(T) * capacity)`, the product taken in `size_t`; the
storage it returns holds `bytes / sizeof(T)` whole raw slots.  The body then
tests `(capacity & capacityMask_) != 0` and throws, or zeroes the four
cursors. -/
def construct (sizeofT : Nat) (alloc : Nat → Bool) (capacity : Nat) : Constructed T :=
  let capacityMask := (capacity + SIZE_MOD - 1) % SIZE_MOD
  let bytes := (sizeofT * capacity) % SIZE_MOD
  if alloc bytes = false then
    Constructed.bad_alloc
  else
    let buffer : List (Option T) := List.replicate (bytes / sizeofT) none
    if capacity &&& capacityMask ≠ 0 then
      Constructed.invalid_argument buffer.length
    else
      Constructed.ok
        { capacityMask_ := capacityMask
          buffer_ := buffer
          head_ := 0
          headCached_ := 0
          tail_ := 0
          tailCached_ := 0 }

/-- The member `emplace` (lines 38-52); the argument is the value that
`T(std::forward<Args>(args)...)` constructs. -/
def emplace (q : SPSCQueue T) (v : T) : Bool × SPSCQueue T :=
  let t := q.tail_
  let next := ((t + 1) % SIZE_MOD) &&& q.capacityMask_
  if next = q.headCached_ then
    let q1 := { q with headCached_ := q.head_ }
    if next = q1.headCached_ then
      (false, q1)
    else
      (true, { q1 with buffer_ := q1.buffer_.set t (some v), tail_ := next })
  else
    (true, { q with buffer_ := q.buffer_.set t (some v), tail_ := next })

/-- The member `push` (lines 31-35): it calls `emplace(v)` and returns
`void`, so the result of `emplace` is dropped. -/
def push (q : SPSCQueue T) (v : T) : Unit × SPSCQueue T :=
  ((), (emplace q v).2)

/-- The value `std::move(buffer_[h])` assigns to `data`: the live object of
slot `h`.  Where the slot holds none, `data` keeps its value. -/
def moveOut (buffer : List (Option T)) (h : Nat) (data : T) : T :=
  match buffer[h]? with
  | some (some v) => v
  | _ => data

/-- The member `pop` (lines 55-70).  The result is the returned boolean,
the value of the reference argument `data` on return, and the queue. -/
def pop (q : SPSCQueue T) (data : T) : Bool × T × SPSCQueue T :=
  let h := q.head_
  if h = q.tailCached_ then
    let q1 := { q with tailCached_ := q.tail_ }
    if h = q1.tailCached_ then
      (false, data, q1)
    else
      (true, moveOut q1.buffer_ h data,
        { q1 with buffer_ := q1.buffer_.set h none,
                  head_ := ((h + 1) % SIZE_MOD) &&& q1.capacityMask_ })
  else
    (true, moveOut q.buffer_ h data,
      { q with buffer_ := q.buffer_.set h none,
               head_ := ((h + 1) % SIZE_MOD) &&& q.capacityMask_ })

/-- The member `size` (lines 72-79).  `diff` is the `size_t` difference
`tail - head` read as a `ptrdiff_t`: it is negative exactly when its
unsigned value is at least `2 ^ 63`, and `diff += capacityMask_ + 1` is
computed modulo `SIZE_MOD`. -/
def size (q : SPSCQueue T) : Nat :=
  let diff := (q.tail_ + SIZE_MOD - q.head_) % SIZE_MOD
  if 2 ^ 63 ≤ diff then
    (diff + (q.capacityMask_ + 1) % SIZE_MOD) % SIZE_MOD
  else
    diff

/-- The member `empty` (lines 81-84). -/
def empty (q : SPSCQueue T) : Bool :=
  decide (q.head_ = q.tail_)

/-- The member `capacity` (line 86). -/
def capacity (q : SPSCQueue T) : Nat :=
  q.capacityMask_

/-- What the loop `while (pop(data));` of the destructor has done when it
exits: the number of iterations whose `pop` returned `true`, the slots on
which `pop` ran the destructor `buffer_[h].~T()` (index and content at the
time of the call, in call order), the final `data` and the final queue. -/
structure Drained (T : Type) where
  pops : Nat
  destructed : List (Nat × Option T)
  data : T
  queue : SPSCQueue T

/-- The loop `while (pop(data));` of the destructor (line 26), bounded by
`fuel` calls of `pop`; `none` when the loop has not exited within them. -/
def drain : Nat → SPSCQueue T → T → Option (Drained T)
  | 0, _, _ => none
  | fuel + 1, q, data =>
    match pop q data with
    | (false, data1, q1) =>
      some { pops := 0, destructed := [], data := data1, queue := q1 }
    | (true, data1, q1) =>
      match drain fuel q1 data1 with
      | none => none
      | some r =>
        some { r with pops := r.pops + 1,
                      destructed := (q.head_, (q.buffer_[q.head_]?).join) :: r.destructed }

/-- The destructor (lines 24-28) up to the release of the storage: `data`
is the default-constructed local `T data;`.  The result is the state in
which `operator delete[](buffer_)` is called. -/
def destructor (fuel : Nat) (q : SPSCQueue T) (data : T) : Option (Drained T) :=
  drain fuel q data

end SPSCQueue

/-! ## Sequences of calls -/

/-- One call made on the queue by its producer or its consumer. -/
inductive Op (T : Type) where
  | emplace (v : T)
  | pop

/-- A queue together with the caller's output variable `data` and the
history of the calls made so far: the values of the `emplace` calls that
returned `true` and the values the `pop` calls that returned `true` left in
`data`, both oldest first. -/
structure Run (T : Type) where
  queue : SPSCQueue T
  data : T
  accepted : List T
  delivered : List T

variable {T : Type}

/-- The history of a queue on which no call has been made. -/
def Run.start (q : SPSCQueue T) (data : T) : Run T :=
  { queue := q, data := data, accepted := [], delivered := [] }

/-- Run one call to completion and record its outcome. -/
def Run.step (r : Run T) : Op T → Run T
  | Op.emplace v =>
    match SPSCQueue.emplace r.queue v with
    | (true, q1) => { r with queue := q1, accepted := r.accepted ++ [v] }
    | (false, q1) => { r with queue := q1 }
  | Op.pop =>
    match SPSCQueue.pop r.queue r.data with
    | (true, d1, q1) => { r with queue := q1, data := d1, delivered := r.delivered ++ [d1] }
    | (false, d1, q1) => { r with queue := q1, data := d1 }

/-- Run a finite sequence of calls, each to completion, in order. -/
def Run.exec (r : Run T) (ops : List (Op T)) : Run T :=
  ops.foldl Run.step r

/-- The allocation of `capacity` slots of `sizeofT` bytes does not wrap:
`sizeof(T)` is positive and `sizeof(T) * capacity` is representable in
`size_t`. -/
def NoWrap (sizeofT capacity : Nat) : Prop :=
  0 < sizeofT ∧ sizeofT * capacity < SIZE_MOD

instance (sizeofT capacity : Nat) : Decidable (NoWrap sizeofT capacity) := by
  unfold NoWrap
  infer_instance

/-- The allocator that never throws. -/
def allocAlways : Nat → Bool := fun _ => true

/-- The queue `q` is reachable: it is the state left by a finite sequence of
`emplace` and `pop` calls on a queue freshly constructed, for some payload
size and some allocator, with a capacity that is a power of two
representable in `size_t`. -/
def Reachable (q : SPSCQueue T) : Prop :=
  ∃ (sizeofT : Nat) (alloc : Nat → Bool) (k : Nat) (q0 : SPSCQueue T) (data : T)
    (ops : List (Op T)),
    k < 64 ∧ SPSCQueue.construct sizeofT alloc (2 ^ k) = Constructed.ok q0 ∧
      ((Run.start q0 data).exec ops).queue = q

/-- The queue `q` is reachable from a construction whose allocation size did
not wrap, so that the storage has as many slots as the capacity. -/
def ReachableNoWrap (q : SPSCQueue T) : Prop :=
  ∃ (sizeofT : Nat) (alloc : Nat → Bool) (k : Nat) (q0 : SPSCQueue T) (data : T)
    (ops : List (Op T)),
    k < 64 ∧ NoWrap sizeofT (2 ^ k) ∧
      SPSCQueue.construct sizeofT alloc (2 ^ k) = Constructed.ok q0 ∧
      ((Run.start q0 data).exec ops).queue = q

/-- The contents of the slots from `head_` up to `tail_`, oldest first. -/
def liveSlots (q : SPSCQueue T) : List (Option T) :=
  (List.range q.size).map
    (fun i => (q.buffer_[(q.head_ + i) % (q.capacityMask_ + 1)]?).join)

open SPSCQueue

/-! ## Concrete queues over `Nat` -/

/-- The queue the constructor builds for capacity 4. -/
def fresh4 : SPSCQueue Nat := SPSCQueue.mk 3 [none, none, none, none] 0 0 0 0

/-- Three calls that fill a queue of capacity 4. -/
def fill3 : List (Op Nat) := [Op.emplace 10, Op.emplace 11, Op.emplace 12]

/-- The queue of capacity 4 after `fill3`: it is full. -/
def full4 : SPSCQueue Nat := SPSCQueue.mk 3 [some 10, some 11, some 12, none] 0 0 3 0

/-- Calls after which `tail_` has wrapped around to 0 while `head_` is 1. -/
def wrapOps : List (Op Nat) :=
  [Op.emplace 10, Op.emplace 11, Op.emplace 12, Op.pop, Op.emplace 13]

/-- The queue of capacity 4 after `wrapOps`: three live elements, with
`tail_ = 0` numerically below `head_ = 1`. -/
def wrapped4 : SPSCQueue Nat := SPSCQueue.mk 3 [none, some 11, some 12, some 13] 1 1 0 3

/-- Calls that fill a queue of capacity 4, are refused a fourth value, and
then take three values out. -/
def mixedOps : List (Op Nat) :=
  [Op.emplace 10, Op.emplace 11, Op.emplace 12, Op.emplace 13, Op.pop, Op.emplace 14,
    Op.pop, Op.pop]

/-- Calls after which `headCached_` lags behind `head_`. -/
def staleOps : List (Op Nat) := [Op.emplace 10, Op.emplace 11, Op.emplace 12, Op.pop]

/-- The queue of capacity 4 after `staleOps`: `head_` is 1 while the
producer's copy `headCached_` is still 0, and `(tail_ + 1) mod 4` is 0. -/
def stale4 : SPSCQueue Nat := SPSCQueue.mk 3 [none, some 11, some 12, none] 1 0 3 3

/-- The queue the constructor builds for capacity `2 ^ 62` and a payload of
4 bytes: the allocation size `4 * 2 ^ 62` wraps to 0 in `size_t`, so the
storage has no slot, while the mask is `2 ^ 62 - 1`. -/
def overflow62 : SPSCQueue Nat := SPSCQueue.mk (2 ^ 62 - 1) [] 0 0 0 0

/-- The queue `overflow62` after one `emplace`: `tail_` has advanced to 1
and the storage still has no slot. -/
def overflow62one : SPSCQueue Nat := SPSCQueue.mk (2 ^ 62 - 1) [] 0 0 1 0

/-! ## Liveness of the slots -/

/-- Index `i` lies in the cyclic half-open range `[h, t)` of a ring of `c`
slots: from `h` up to `t` when `h ≤ t`, and from `h` up to the end of the
ring and then from 0 up to `t` when `t` has wrapped around below `h`. -/
def inCyclicRange (c h t i : Nat) : Prop :=
  i < c ∧ (if h ≤ t then h ≤ i ∧ i < t else h ≤ i ∨ i < t)

instance (c h t i : Nat) : Decidable (inCyclicRange c h t i) := by
  unfold inCyclicRange
  infer_instance

/-- The slot-liveness property of a queue: the slot of index `i` holds a
live element exactly when `i` lies in the cyclic range from `head_` to
`tail_` of the ring of `capacityMask_ + 1` slots. -/
def SlotLiveness (q : SPSCQueue T) : Prop :=
  ∀ i, ((q.buffer_[i]?).join).isSome = true ↔
    inCyclicRange (q.capacityMask_ + 1) q.head_ q.tail_ i

/-! ## The representation invariant -/

/-- The number of steps from cursor `x` forward to cursor `y` on a ring of
`c` slots. -/
def dist (c x y : Nat) : Nat := (y + c - x) % c

/-- The representation invariant of a queue of capacity `2 ^ k` whose live
elements are `live`, oldest first.  The four cursors are slot indices; the
ring holds `live.length` elements from `head_` to `tail_`; `tailCached_`
lies between `head_` and `tail_`; `headCached_` lies behind `head_` and
`tail_` has not caught up with it; slot `head_ + i` holds the `i`-th live
element and every other slot holds none. -/
structure Inv (k : Nat) (q : SPSCQueue T) (live : List T) : Prop where
  hk : k < 64
  mask : q.capacityMask_ = 2 ^ k - 1
  len : q.buffer_.length = 2 ^ k
  head_lt : q.head_ < 2 ^ k
  tail_lt : q.tail_ < 2 ^ k
  hc_lt : q.headCached_ < 2 ^ k
  tc_lt : q.tailCached_ < 2 ^ k
  count : dist (2 ^ k) q.head_ q.tail_ = live.length
  tc_le : dist (2 ^ k) q.head_ q.tailCached_ ≤ live.length
  hc_le : dist (2 ^ k) q.headCached_ q.head_ + live.length < 2 ^ k
  slots : ∀ i, i < 2 ^ k → q.buffer_[(q.head_ + i) % 2 ^ k]? = some (live[i]?)

/-- The part of the representation invariant that concerns the cursors only,
for a queue of capacity `2 ^ k` on which `n` elements are outstanding
(accepted and not yet delivered).  It says nothing of the storage. -/
structure CInv (k : Nat) (q : SPSCQueue T) (n : Nat) : Prop where
  hk : k < 64
  mask : q.capacityMask_ = 2 ^ k - 1
  head_lt : q.head_ < 2 ^ k
  tail_lt : q.tail_ < 2 ^ k
  hc_lt : q.headCached_ < 2 ^ k
  tc_lt : q.tailCached_ < 2 ^ k
  count : dist (2 ^ k) q.head_ q.tail_ = n
  tc_le : dist (2 ^ k) q.head_ q.tailCached_ ≤ n
  hc_le : dist (2 ^ k) q.headCached_ q.head_ + n < 2 ^ k

/-! ## Arithmetic of the cursors -/

/-- A number below `2 * c` wraps around the ring at most once. -/
theorem wrap_cases (c x : Nat) (hx : x < 2 * c) :
    (x < c ∧ x % c = x) ∨ (c ≤ x ∧ x % c = x - c) := by
  by_cases h : x < c
  · exact Or.inl ⟨h, Nat.mod_eq_of_lt h⟩
  · refine Or.inr ⟨by omega, ?_⟩
    rw [Nat.mod_eq_sub_mod (by omega), Nat.mod_eq_of_lt (by omega)]

/-- The distance between two slot indices, by their numerical order. -/
theorem dist_cases (c x y : Nat) (hx : x < c) (hy : y < c) :
    (x ≤ y ∧ dist c x y = y - x) ∨ (y < x ∧ dist c x y = y + c - x) := by
  unfold dist
  rcases wrap_cases c (y + c - x) (by omega) with h | h <;> omega

/-- A capacity `2 ^ k` with `k < 64` is positive and at most `2 ^ 63`. -/
theorem pow_bounds (k : Nat) (hk : k < 64) : 0 < 2 ^ k ∧ 2 ^ k ≤ 2 ^ 63 :=
  ⟨Nat.pos_pow_of_pos k (by decide), Nat.pow_le_pow_right (by decide) (by omega)⟩

/-- The `size_t` value of `capacity - 1` for a capacity `2 ^ k`. -/
theorem mask_of_pow (k : Nat) (hk : k < 64) :
    (2 ^ k + SIZE_MOD - 1) % SIZE_MOD = 2 ^ k - 1 := by
  have h := pow_bounds k hk
  unfold SIZE_MOD
  have e : 2 ^ k + 2 ^ 64 - 1 = 2 ^ k - 1 + 2 ^ 64 := by omega
  rw [e, Nat.add_mod_right, Nat.mod_eq_of_lt (by omega)]

/-- On a cursor below a power-of-two capacity, the source's
`(x + 1) & capacityMask_` is the successor modulo the capacity. -/
theorem next_eq (k x : Nat) (hk : k < 64) (hx : x < 2 ^ k) :
    ((x + 1) % SIZE_MOD) &&& (2 ^ k - 1) = (x + 1) % 2 ^ k := by
  have h := pow_bounds k hk
  rw [Nat.and_pow_two_sub_one_eq_mod, Nat.mod_eq_of_lt (a := x + 1)]
  unfold SIZE_MOD
  omega

/-- A cursor is zero steps from itself. -/
theorem dist_self (c x : Nat) (hx : x < c) : dist c x x = 0 := by
  rcases dist_cases c x x hx hx with h | h <;> omega

/-- Cursors at distance zero are equal. -/
theorem dist_eq_zero (c x y : Nat) (hx : x < c) (hy : y < c) (h : dist c x y = 0) : x = y := by
  rcases dist_cases c x y hx hy with a | a <;> omega

/-- Advancing the far cursor by one slot adds one to the distance, as long
as it does not come round to the near cursor. -/
theorem dist_succ_right (c x y : Nat) (hx : x < c) (hy : y < c) (h : dist c x y + 1 < c) :
    dist c x ((y + 1) % c) = dist c x y + 1 := by
  have hl : (y + 1) % c < c := Nat.mod_lt _ (by omega)
  rcases wrap_cases c (y + 1) (by omega) with w | w <;>
    rcases dist_cases c x y hx hy with a | a <;>
      rcases dist_cases c x ((y + 1) % c) hx hl with b | b <;> omega

/-- Advancing the near cursor by one slot takes one off the distance. -/
theorem dist_succ_left (c x y : Nat) (hx : x < c) (hy : y < c) (h : x ≠ y) :
    dist c ((x + 1) % c) y + 1 = dist c x y := by
  have hl : (x + 1) % c < c := Nat.mod_lt _ (by omega)
  rcases wrap_cases c (x + 1) (by omega) with w | w <;>
    rcases dist_cases c x y hx hy with a | a <;>
      rcases dist_cases c ((x + 1) % c) y hl hy with b | b <;> omega

/-- The successor of `y` on the ring is `x` exactly when `y` is `c - 1`
steps ahead of `x`. -/
theorem succ_eq_iff (c x y : Nat) (hx : x < c) (hy : y < c) :
    (y + 1) % c = x ↔ dist c x y + 1 = c := by
  rcases wrap_cases c (y + 1) (by omega) with w | w <;>
    rcases dist_cases c x y hx hy with a | a <;> omega

/-- Distances along the ring add up while the total stays below one turn. -/
theorem dist_add (c x y z : Nat) (hx : x < c) (hy : y < c) (hz : z < c)
    (h : dist c x y + dist c y z < c) : dist c x z = dist c x y + dist c y z := by
  rcases dist_cases c x y hx hy with a | a <;>
    rcases dist_cases c y z hy hz with b | b <;>
      rcases dist_cases c x z hx hz with d | d <;> omega

/-- A distance on the ring is below the capacity. -/
theorem dist_lt (c x y : Nat) (hc : 0 < c) : dist c x y < c := Nat.mod_lt _ hc

/-- Walking the distance from `x` to `y` forward from `x` ends at `y`. -/
theorem add_dist (c x y : Nat) (hx : x < c) (hy : y < c) : (x + dist c x y) % c = y := by
  rcases dist_cases c x y hx hy with a | a <;>
    rcases wrap_cases c (x + dist c x y) (by omega) with w | w <;> omega

/-- Two offsets below the capacity that name the same slot are equal. -/
theorem slot_inj (c h i j : Nat) (hh : h < c) (hi : i < c) (hj : j < c)
    (e : (h + i) % c = (h + j) % c) : i = j := by
  rcases wrap_cases c (h + i) (by omega) with a | a <;>
    rcases wrap_cases c (h + j) (by omega) with b | b <;> omega

/-- The queue the constructor builds when it succeeds on a capacity `2 ^ k`:
the mask is `2 ^ k - 1`, the cursors are zero and the storage has the whole
slots that fit in `sizeof(T) * 2 ^ k` bytes, the product reduced modulo
`SIZE_MOD`. -/
theorem construct_ok_eq (sizeofT : Nat) (alloc : Nat → Bool) (k : Nat) (hk : k < 64)
    (q0 : SPSCQueue T) (hq : construct sizeofT alloc (2 ^ k) = Constructed.ok q0) :
    q0 = SPSCQueue.mk (2 ^ k - 1)
      (List.replicate ((sizeofT * 2 ^ k) % SIZE_MOD / sizeofT) none) 0 0 0 0 := by
  have hand : 2 ^ k &&& (2 ^ k - 1) = 0 := by
    rw [Nat.and_pow_two_sub_one_eq_mod, Nat.mod_self]
  unfold construct at hq
  simp only [mask_of_pow k hk, hand, ne_eq, not_true_eq_false, if_false] at hq
  split at hq
  · exact Constructed.noConfusion hq
  · exact (Constructed.ok.inj hq).symm

/-- Construction with a power-of-two capacity succeeds whenever the
allocator returns storage. -/
theorem construct_pow_ok (sizeofT : Nat) (alloc : Nat → Bool) (k : Nat) (hk : k < 64)
    (ha : alloc ((sizeofT * 2 ^ k) % SIZE_MOD) = true) :
    (construct sizeofT alloc (2 ^ k) : Constructed T) =
      Constructed.ok (SPSCQueue.mk (2 ^ k - 1)
        (List.replicate ((sizeofT * 2 ^ k) % SIZE_MOD / sizeofT) none) 0 0 0 0) := by
  have hand : 2 ^ k &&& (2 ^ k - 1) = 0 := by
    rw [Nat.and_pow_two_sub_one_eq_mod, Nat.mod_self]
  unfold construct
  simp only [mask_of_pow k hk, hand, ne_eq, not_true_eq_false, if_false, ha,
    Bool.true_eq_false]

/-- When the allocation size does not wrap, the storage has as many slots as
the capacity. -/
theorem slots_of_noWrap (sizeofT c : Nat) (h : NoWrap sizeofT c) :
    (sizeofT * c) % SIZE_MOD / sizeofT = c := by
  rw [Nat.mod_eq_of_lt h.2, Nat.mul_div_cancel_left c h.1]

/-- A freshly constructed queue satisfies the cursor invariant with nothing
outstanding. -/
theorem construct_cinv {sizeofT : Nat} {alloc : Nat → Bool} {k : Nat} (hk : k < 64)
    {q0 : SPSCQueue T} (hq : construct sizeofT alloc (2 ^ k) = Constructed.ok q0) :
    CInv k q0 0 := by
  have hb := pow_bounds k hk
  rw [construct_ok_eq sizeofT alloc k hk q0 hq]
  have hd : dist (2 ^ k) 0 0 = 0 := dist_self _ _ hb.1
  exact ⟨hk, rfl, hb.1, hb.1, hb.1, hb.1, hd, by simp [hd], by simp [hd, hb.1]⟩

/-- A queue freshly constructed without wrap of the allocation size satisfies
the full invariant with no live element. -/
theorem construct_inv {sizeofT : Nat} {alloc : Nat → Bool} {k : Nat} (hk : k < 64)
    (hw : NoWrap sizeofT (2 ^ k)) {q0 : SPSCQueue T}
    (hq : construct sizeofT alloc (2 ^ k) = Constructed.ok q0) :
    Inv k q0 [] := by
  have hb := pow_bounds k hk
  rw [construct_ok_eq sizeofT alloc k hk q0 hq, slots_of_noWrap _ _ hw]
  have hd : dist (2 ^ k) 0 0 = 0 := dist_self _ _ hb.1
  refine ⟨hk, rfl, by simp, hb.1, hb.1, hb.1, hb.1, by simp [hd], by simp [hd],
    by simp [hd, hb.1], ?_⟩
  intro i hi
  have : i % 2 ^ k < 2 ^ k := Nat.mod_lt _ hb.1
  simp [List.getElem?_replicate, this]

/-- What `emplace` does on a queue that satisfies the invariant: with room
left it returns `true`, stores the value behind the live elements and keeps
the invariant; on a full queue it returns `false` and changes nothing. -/
theorem emplace_spec {k : Nat} {q : SPSCQueue T} {live : List T} (h : Inv k q live) (v : T) :
    (live.length + 1 < 2 ^ k → (emplace q v).1 = true ∧ Inv k (emplace q v).2 (live ++ [v])) ∧
    (¬ live.length + 1 < 2 ^ k → emplace q v = (false, q)) := by
  have hb := pow_bounds k h.hk
  have hnext : ((q.tail_ + 1) % SIZE_MOD) &&& q.capacityMask_ = (q.tail_ + 1) % 2 ^ k := by
    rw [h.mask]; exact next_eq k q.tail_ h.hk h.tail_lt
  have hcnt := h.count
  have htc := h.tc_le
  have hhc := h.hc_le
  have hh := h.head_lt
  have ht := h.tail_lt
  have hhcl := h.hc_lt
  have htcl := h.tc_lt
  have full_head := succ_eq_iff (2 ^ k) q.head_ q.tail_ hh ht
  have full_hc := succ_eq_iff (2 ^ k) q.headCached_ q.tail_ hhcl ht
  have hadd : dist (2 ^ k) q.headCached_ q.tail_ =
      dist (2 ^ k) q.headCached_ q.head_ + dist (2 ^ k) q.head_ q.tail_ :=
    dist_add _ _ _ _ hhcl hh ht (by omega)
  -- the invariant of the state after a successful call, whatever the cache
  have key : ∀ hc : Nat, hc < 2 ^ k → live.length + 1 < 2 ^ k →
      dist (2 ^ k) hc q.head_ + (live.length + 1) < 2 ^ k →
      Inv k { q with headCached_ := hc, buffer_ := q.buffer_.set q.tail_ (some v),
                     tail_ := (q.tail_ + 1) % 2 ^ k } (live ++ [v]) := by
    intro hc hcl hroom hcd
    have s1 := dist_succ_right (2 ^ k) q.head_ q.tail_ hh ht (by omega)
    have htail : (q.head_ + live.length) % 2 ^ k = q.tail_ := by
      rw [← hcnt]; exact add_dist _ _ _ hh ht
    refine ⟨h.hk, h.mask, by simpa using h.len, h.head_lt, Nat.mod_lt _ hb.1, hcl, h.tc_lt,
      ?_, ?_, ?_, ?_⟩
    · simp only [List.length_append, List.length_singleton]; omega
    · simp only [List.length_append, List.length_singleton]; omega
    · simpa using hcd
    · intro i hi
      simp only [List.getElem?_set, h.len]
      by_cases hin : i = live.length
      · subst hin
        rw [htail]
        simp [ht]
      · have hne : q.tail_ ≠ (q.head_ + i) % 2 ^ k := by
          intro e
          rw [← htail] at e
          exact hin (slot_inj (2 ^ k) q.head_ _ _ hh (by omega) hi e).symm
        rw [if_neg hne, h.slots i hi]
        by_cases hlt : i < live.length
        · rw [List.getElem?_append_left hlt]
        · rw [List.getElem?_eq_none (by omega), List.getElem?_eq_none (by simp; omega)]
  unfold emplace
  simp only [hnext]
  constructor
  · intro hroom
    by_cases c1 : (q.tail_ + 1) % 2 ^ k = q.headCached_
    · have c2 : (q.tail_ + 1) % 2 ^ k ≠ q.head_ := by
        intro e; have := full_head.1 e; omega
      rw [if_pos c1, if_neg c2]
      exact ⟨rfl, key q.head_ hh hroom (by rw [dist_self _ _ hh]; omega)⟩
    · rw [if_neg c1]
      refine ⟨rfl, key q.headCached_ hhcl hroom ?_⟩
      have : dist (2 ^ k) q.headCached_ q.tail_ + 1 ≠ 2 ^ k := fun e => c1 (full_hc.2 e)
      omega
  · intro hfull
    have e : q.head_ = q.headCached_ :=
      (dist_eq_zero _ _ _ hhcl hh (by omega)).symm
    have c2 : (q.tail_ + 1) % 2 ^ k = q.head_ := full_head.2 (by omega)
    have c1 : (q.tail_ + 1) % 2 ^ k = q.headCached_ := by rw [← e]; exact c2
    rw [if_pos c1, if_pos c2]
    clear key
    cases q
    simp only at e
    subst e
    rfl

/-- On a queue with no live element `pop` returns `false` and changes
neither the queue nor the output. -/
theorem pop_nil {k : Nat} {q : SPSCQueue T} (h : Inv k q []) (data : T) :
    pop q data = (false, data, q) := by
  have hcnt := h.count
  have htc := h.tc_le
  simp only [List.length_nil] at hcnt htc
  have e1 : q.head_ = q.tailCached_ := dist_eq_zero _ _ _ h.head_lt h.tc_lt (by omega)
  have e2 : q.head_ = q.tail_ := dist_eq_zero _ _ _ h.head_lt h.tail_lt hcnt
  unfold pop
  simp only [if_pos e1, if_pos e2]
  have e : q.tail_ = q.tailCached_ := by omega
  cases q
  simp only at e
  subst e
  rfl

/-- On a queue whose oldest live element is `x`, `pop` returns `true`,
delivers `x` from slot `head_`, and keeps the invariant for the rest. -/
theorem pop_cons {k : Nat} {q : SPSCQueue T} {x : T} {rest : List T}
    (h : Inv k q (x :: rest)) (data : T) :
    (pop q data).1 = true ∧ (pop q data).2.1 = x ∧ Inv k (pop q data).2.2 rest ∧
      q.buffer_[q.head_]? = some (some x) ∧
      (pop q data).2.2.head_ = (q.head_ + 1) % 2 ^ k := by
  have hb := pow_bounds k h.hk
  have hnext : ((q.head_ + 1) % SIZE_MOD) &&& q.capacityMask_ = (q.head_ + 1) % 2 ^ k := by
    rw [h.mask]; exact next_eq k q.head_ h.hk h.head_lt
  have hcnt := h.count
  have htc := h.tc_le
  have hhc := h.hc_le
  have hh := h.head_lt
  have ht := h.tail_lt
  have hhcl := h.hc_lt
  have htcl := h.tc_lt
  simp only [List.length_cons] at hcnt htc hhc
  have hslot : q.buffer_[q.head_]? = some (some x) := by
    have := h.slots 0 hb.1
    simpa [Nat.mod_eq_of_lt hh] using this
  have hmove : moveOut q.buffer_ q.head_ data = x := by
    unfold moveOut
    rw [hslot]
  have hl : (q.head_ + 1) % 2 ^ k < 2 ^ k := Nat.mod_lt _ hb.1
  have hne_tail : q.head_ ≠ q.tail_ := by
    intro e; rw [← e, dist_self _ _ hh] at hcnt; omega
  have s1 := dist_succ_left (2 ^ k) q.head_ q.tail_ hh ht hne_tail
  have s2 := dist_succ_right (2 ^ k) q.headCached_ q.head_ hhcl hh (by omega)
  -- the invariant of the state after a successful call, whatever the cache
  have key : ∀ tc : Nat, tc < 2 ^ k → q.head_ ≠ tc →
      dist (2 ^ k) q.head_ tc ≤ rest.length + 1 →
      Inv k { q with tailCached_ := tc, buffer_ := q.buffer_.set q.head_ none,
                     head_ := (q.head_ + 1) % 2 ^ k } rest := by
    intro tc tcl tne tcd
    have s3 := dist_succ_left (2 ^ k) q.head_ tc hh tcl tne
    refine ⟨h.hk, h.mask, by simpa using h.len, hl, ht, hhcl, tcl, ?_, ?_, ?_, ?_⟩
    · dsimp only
      omega
    · dsimp only
      omega
    · dsimp only
      omega
    · intro i hi
      dsimp only
      rw [Nat.mod_add_mod, List.getElem?_set, h.len]
      by_cases hlast : i + 1 = 2 ^ k
      · have e : (q.head_ + 1 + i) % 2 ^ k = q.head_ := by
          rw [Nat.add_assoc, Nat.add_comm 1 i, hlast, Nat.add_mod_right, Nat.mod_eq_of_lt hh]
        rw [e, if_pos rfl, if_pos hh, List.getElem?_eq_none (by omega)]
      · have hne : q.head_ ≠ (q.head_ + 1 + i) % 2 ^ k := by
          intro e
          have e0 : (q.head_ + 0) % 2 ^ k = (q.head_ + (1 + i)) % 2 ^ k := by
            rw [Nat.add_zero, Nat.mod_eq_of_lt hh, ← Nat.add_assoc]; exact e
          have := slot_inj (2 ^ k) q.head_ 0 (1 + i) hh hb.1 (by omega) e0
          omega
        rw [if_neg hne, Nat.add_assoc, h.slots (1 + i) (by omega), Nat.add_comm 1 i,
          List.getElem?_cons_succ]
  unfold pop
  simp only [hnext]
  by_cases c1 : q.head_ = q.tailCached_
  · rw [if_pos c1, if_neg hne_tail]
    exact ⟨rfl, hmove, key q.tail_ ht hne_tail (by omega), hslot, rfl⟩
  · rw [if_neg c1]
    exact ⟨rfl, hmove, key q.tailCached_ htcl c1 (by omega), hslot, rfl⟩


/-! ## The cursors alone -/

/-- The full invariant contains the cursor invariant. -/
theorem Inv.toCInv {k : Nat} {q : SPSCQueue T} {live : List T} (h : Inv k q live) :
    CInv k q live.length :=
  ⟨h.hk, h.mask, h.head_lt, h.tail_lt, h.hc_lt, h.tc_lt, h.count, h.tc_le, h.hc_le⟩

/-- The cursor invariant bounds the outstanding elements by `capacity - 1`. -/
theorem CInv.lt {k : Nat} {q : SPSCQueue T} {n : Nat} (h : CInv k q n) : n < 2 ^ k := by
  have := h.hc_le
  omega

/-- Under the cursor invariant `capacityMask_ + 1` is the capacity. -/
theorem CInv.cap_eq {k : Nat} {q : SPSCQueue T} {n : Nat} (h : CInv k q n) :
    q.capacityMask_ + 1 = 2 ^ k := by
  have hb := pow_bounds k h.hk
  rw [h.mask, Nat.sub_add_cancel hb.1]

/-- What `emplace` does to the cursors: with room left it returns `true` and
keeps the cursor invariant with one more element outstanding; on a full
queue it returns `false` and changes nothing.  This holds whatever the
storage is. -/
theorem emplace_cspec {k : Nat} {q : SPSCQueue T} {n : Nat} (h : CInv k q n) (v : T) :
    (n + 1 < 2 ^ k → (emplace q v).1 = true ∧ CInv k (emplace q v).2 (n + 1)) ∧
    (¬ n + 1 < 2 ^ k → emplace q v = (false, q)) := by
  have hb := pow_bounds k h.hk
  have hnext : ((q.tail_ + 1) % SIZE_MOD) &&& q.capacityMask_ = (q.tail_ + 1) % 2 ^ k := by
    rw [h.mask]; exact next_eq k q.tail_ h.hk h.tail_lt
  have hcnt := h.count
  have htc := h.tc_le
  have hhc := h.hc_le
  have hh := h.head_lt
  have ht := h.tail_lt
  have hhcl := h.hc_lt
  have htcl := h.tc_lt
  have full_head := succ_eq_iff (2 ^ k) q.head_ q.tail_ hh ht
  have full_hc := succ_eq_iff (2 ^ k) q.headCached_ q.tail_ hhcl ht
  have hadd : dist (2 ^ k) q.headCached_ q.tail_ =
      dist (2 ^ k) q.headCached_ q.head_ + dist (2 ^ k) q.head_ q.tail_ :=
    dist_add _ _ _ _ hhcl hh ht (by omega)
  have key : ∀ hc : Nat, hc < 2 ^ k → n + 1 < 2 ^ k →
      dist (2 ^ k) hc q.head_ + (n + 1) < 2 ^ k →
      CInv k { q with headCached_ := hc, buffer_ := q.buffer_.set q.tail_ (some v),
                      tail_ := (q.tail_ + 1) % 2 ^ k } (n + 1) := by
    intro hc hcl hroom hcd
    have s1 := dist_succ_right (2 ^ k) q.head_ q.tail_ hh ht (by omega)
    refine ⟨h.hk, h.mask, h.head_lt, Nat.mod_lt _ hb.1, hcl, h.tc_lt, ?_, ?_, hcd⟩
    · dsimp only
      omega
    · dsimp only
      omega
  unfold emplace
  simp only [hnext]
  constructor
  · intro hroom
    by_cases c1 : (q.tail_ + 1) % 2 ^ k = q.headCached_
    · have c2 : (q.tail_ + 1) % 2 ^ k ≠ q.head_ := by
        intro e; have := full_head.1 e; omega
      rw [if_pos c1, if_neg c2]
      exact ⟨rfl, key q.head_ hh hroom (by rw [dist_self _ _ hh]; omega)⟩
    · rw [if_neg c1]
      refine ⟨rfl, key q.headCached_ hhcl hroom ?_⟩
      have : dist (2 ^ k) q.headCached_ q.tail_ + 1 ≠ 2 ^ k := fun e => c1 (full_hc.2 e)
      omega
  · intro hfull
    have e : q.head_ = q.headCached_ :=
      (dist_eq_zero _ _ _ hhcl hh (by omega)).symm
    have c2 : (q.tail_ + 1) % 2 ^ k = q.head_ := full_head.2 (by omega)
    have c1 : (q.tail_ + 1) % 2 ^ k = q.headCached_ := by rw [← e]; exact c2
    rw [if_pos c1, if_pos c2]
    clear key
    cases q
    simp only at e
    subst e
    rfl

/-- With nothing outstanding `pop` returns `false` and changes neither the
queue nor the output, whatever the storage is. -/
theorem pop_czero {k : Nat} {q : SPSCQueue T} (h : CInv k q 0) (data : T) :
    pop q data = (false, data, q) := by
  have hcnt := h.count
  have htc := h.tc_le
  have e1 : q.head_ = q.tailCached_ := dist_eq_zero _ _ _ h.head_lt h.tc_lt (by omega)
  have e2 : q.head_ = q.tail_ := dist_eq_zero _ _ _ h.head_lt h.tail_lt hcnt
  unfold pop
  simp only [if_pos e1, if_pos e2]
  have e : q.tail_ = q.tailCached_ := by omega
  cases q
  simp only at e
  subst e
  rfl

/-- With an element outstanding `pop` returns `true` and keeps the cursor
invariant with one element less, whatever the storage is. -/
theorem pop_csucc {k : Nat} {q : SPSCQueue T} {n : Nat} (h : CInv k q (n + 1)) (data : T) :
    (pop q data).1 = true ∧ CInv k (pop q data).2.2 n := by
  have hb := pow_bounds k h.hk
  have hnext : ((q.head_ + 1) % SIZE_MOD) &&& q.capacityMask_ = (q.head_ + 1) % 2 ^ k := by
    rw [h.mask]; exact next_eq k q.head_ h.hk h.head_lt
  have hcnt := h.count
  have htc := h.tc_le
  have hhc := h.hc_le
  have hh := h.head_lt
  have ht := h.tail_lt
  have hhcl := h.hc_lt
  have htcl := h.tc_lt
  have hl : (q.head_ + 1) % 2 ^ k < 2 ^ k := Nat.mod_lt _ hb.1
  have hne_tail : q.head_ ≠ q.tail_ := by
    intro e; rw [← e, dist_self _ _ hh] at hcnt; omega
  have s1 := dist_succ_left (2 ^ k) q.head_ q.tail_ hh ht hne_tail
  have s2 := dist_succ_right (2 ^ k) q.headCached_ q.head_ hhcl hh (by omega)
  have key : ∀ tc : Nat, tc < 2 ^ k → q.head_ ≠ tc →
      dist (2 ^ k) q.head_ tc ≤ n + 1 →
      CInv k { q with tailCached_ := tc, buffer_ := q.buffer_.set q.head_ none,
                      head_ := (q.head_ + 1) % 2 ^ k } n := by
    intro tc tcl tne tcd
    have s3 := dist_succ_left (2 ^ k) q.head_ tc hh tcl tne
    refine ⟨h.hk, h.mask, hl, ht, hhcl, tcl, ?_, ?_, ?_⟩
    · dsimp only
      omega
    · dsimp only
      omega
    · dsimp only
      omega
  unfold pop
  simp only [hnext]
  by_cases c1 : q.head_ = q.tailCached_
  · rw [if_pos c1, if_neg hne_tail]
    exact ⟨rfl, key q.tail_ ht hne_tail (by omega)⟩
  · rw [if_neg c1]
    exact ⟨rfl, key q.tailCached_ htcl c1 (by omega)⟩

/-- Under the cursor invariant `size` returns the number of outstanding
elements. -/
theorem CInv.size_count {k : Nat} {q : SPSCQueue T} {n : Nat} (h : CInv k q n) :
    q.size = n := by
  have hb := pow_bounds k h.hk
  have d1 := dist_cases (2 ^ k) q.head_ q.tail_ h.head_lt h.tail_lt
  have hcnt := h.count
  have hh := h.head_lt
  have ht := h.tail_lt
  have hm := h.mask
  unfold size SIZE_MOD
  simp only [hm]
  generalize 2 ^ k = c at *
  norm_num at hb ⊢
  split_ifs <;> omega

/-- Under the cursor invariant the cursors meet exactly when nothing is
outstanding. -/
theorem CInv.meet_iff {k : Nat} {q : SPSCQueue T} {n : Nat} (h : CInv k q n) :
    q.head_ = q.tail_ ↔ n = 0 := by
  have hcnt := h.count
  constructor
  · intro e
    rw [← e, dist_self _ _ h.head_lt] at hcnt
    exact hcnt.symm
  · intro e
    rw [e] at hcnt
    exact dist_eq_zero _ _ _ h.head_lt h.tail_lt hcnt

/-- Under the cursor invariant the queue is full, `(tail_ + 1) mod capacity`
being `head_`, exactly when `capacity - 1` elements are outstanding. -/
theorem CInv.full_iff {k : Nat} {q : SPSCQueue T} {n : Nat} (h : CInv k q n) :
    (q.tail_ + 1) % (q.capacityMask_ + 1) = q.head_ ↔ n + 1 = 2 ^ k := by
  rw [h.cap_eq, succ_eq_iff _ _ _ h.head_lt h.tail_lt, h.count]

/-- Under the cursor invariant `emplace` returns `false` exactly on a full
queue. -/
theorem CInv.emplace_false_iff {k : Nat} {q : SPSCQueue T} {n : Nat} (h : CInv k q n)
    (v : T) : (emplace q v).1 = false ↔ n + 1 = 2 ^ k := by
  have hlt := h.lt
  have hs := emplace_cspec h v
  constructor
  · intro hf
    by_contra hn
    have := (hs.1 (by omega)).1
    rw [hf] at this
    exact Bool.noConfusion this
  · intro hfull
    rw [hs.2 (by omega)]

/-- Under the cursor invariant `pop` returns `false` exactly when nothing is
outstanding. -/
theorem CInv.pop_false_iff {k : Nat} {q : SPSCQueue T} {n : Nat} (h : CInv k q n)
    (data : T) : (pop q data).1 = false ↔ n = 0 := by
  cases n with
  | zero => simp [pop_czero h data]
  | succ m =>
    have := (pop_csucc h data).1
    simp [this]

/-- One call keeps the cursor invariant and the count of the history: as
many values accepted as delivered and outstanding together. -/
theorem step_cinv {k : Nat} (r : Run T) (n : Nat) (h : CInv k r.queue n)
    (hacc : r.accepted.length = r.delivered.length + n) (op : Op T) :
    ∃ n1, CInv k (r.step op).queue n1 ∧
      (r.step op).accepted.length = (r.step op).delivered.length + n1 := by
  cases op with
  | emplace v =>
    have hs := emplace_cspec h v
    by_cases hroom : n + 1 < 2 ^ k
    · obtain ⟨h1, h2⟩ := hs.1 hroom
      rcases hres : emplace r.queue v with ⟨b, q1⟩
      rw [hres] at h1 h2
      simp only at h1 h2
      subst h1
      refine ⟨n + 1, ?_, ?_⟩
      · simp only [Run.step, hres]; exact h2
      · simp only [Run.step, hres, List.length_append, List.length_singleton]; omega
    · have e := hs.2 hroom
      refine ⟨n, ?_, ?_⟩
      · simp only [Run.step, e]; exact h
      · simp only [Run.step, e]; exact hacc
  | pop =>
    cases n with
    | zero =>
      have e := pop_czero h r.data
      refine ⟨0, ?_, ?_⟩
      · simp only [Run.step, e]; exact h
      · simp only [Run.step, e]; exact hacc
    | succ m =>
      obtain ⟨h1, h2⟩ := pop_csucc h r.data
      rcases hres : pop r.queue r.data with ⟨b, d1, q1⟩
      rw [hres] at h1 h2
      simp only at h1 h2
      subst h1
      refine ⟨m, ?_, ?_⟩
      · simp only [Run.step, hres]; exact h2
      · simp only [Run.step, hres, List.length_append, List.length_singleton]; omega

/-- A sequence of calls keeps the cursor invariant and the count of the
history. -/
theorem exec_cinv {k : Nat} (ops : List (Op T)) (r : Run T) (n : Nat)
    (h : CInv k r.queue n) (hacc : r.accepted.length = r.delivered.length + n) :
    ∃ n1, CInv k (r.exec ops).queue n1 ∧
      (r.exec ops).accepted.length = (r.exec ops).delivered.length + n1 := by
  induction ops generalizing r n with
  | nil => exact ⟨n, h, hacc⟩
  | cons op ops ih =>
    obtain ⟨n1, h1, hacc1⟩ := step_cinv r n h hacc op
    exact ih (r.step op) n1 h1 hacc1

/-- Every run from a freshly constructed queue of capacity `2 ^ k`, whatever
the payload size and the allocator, ends in a state that satisfies the
cursor invariant for the number of values accepted and not yet delivered. -/
theorem run_cinv {sizeofT : Nat} {alloc : Nat → Bool} {k : Nat} (hk : k < 64)
    {q0 : SPSCQueue T} (hq : construct sizeofT alloc (2 ^ k) = Constructed.ok q0)
    (data : T) (ops : List (Op T)) :
    ∃ n, CInv k ((Run.start q0 data).exec ops).queue n ∧
      ((Run.start q0 data).exec ops).accepted.length =
        ((Run.start q0 data).exec ops).delivered.length + n :=
  exec_cinv ops (Run.start q0 data) 0 (construct_cinv hk hq) rfl

/-- Every reachable queue satisfies the cursor invariant. -/
theorem reachable_cinv {q : SPSCQueue T} (h : Reachable q) : ∃ k n, CInv k q n := by
  obtain ⟨sizeofT, alloc, k, q0, data, ops, hk, hq, rfl⟩ := h
  obtain ⟨n, hinv, _⟩ := run_cinv hk hq data ops
  exact ⟨k, n, hinv⟩

/-! ## Runs keep the invariant -/

/-- The invariant bounds the number of live elements by `capacity - 1`. -/
theorem Inv.length_lt {k : Nat} {q : SPSCQueue T} {live : List T} (h : Inv k q live) :
    live.length < 2 ^ k := by
  have := h.hc_le
  omega

/-- One call keeps the invariant and the history: the accepted values are
the delivered ones followed by the live ones. -/
theorem step_inv {k : Nat} (r : Run T) (live : List T) (h : Inv k r.queue live)
    (hacc : r.accepted = r.delivered ++ live) (op : Op T) :
    ∃ live1, Inv k (r.step op).queue live1 ∧
      (r.step op).accepted = (r.step op).delivered ++ live1 := by
  cases op with
  | emplace v =>
    have hs := emplace_spec h v
    by_cases hroom : live.length + 1 < 2 ^ k
    · obtain ⟨h1, h2⟩ := hs.1 hroom
      rcases hres : emplace r.queue v with ⟨b, q1⟩
      rw [hres] at h1 h2
      simp only at h1 h2
      subst h1
      refine ⟨live ++ [v], ?_, ?_⟩
      · simp only [Run.step, hres]; exact h2
      · simp only [Run.step, hres, hacc, List.append_assoc]
    · have e := hs.2 hroom
      refine ⟨live, ?_, ?_⟩
      · simp only [Run.step, e]; exact h
      · simp only [Run.step, e]; exact hacc
  | pop =>
    cases live with
    | nil =>
      have e := pop_nil h r.data
      refine ⟨[], ?_, ?_⟩
      · simp only [Run.step, e]; exact h
      · simp only [Run.step, e]; exact hacc
    | cons x rest =>
      obtain ⟨h1, h2, h3, _⟩ := pop_cons h r.data
      rcases hres : pop r.queue r.data with ⟨b, d1, q1⟩
      rw [hres] at h1 h2 h3
      simp only at h1 h2 h3
      subst h1 h2
      refine ⟨rest, ?_, ?_⟩
      · simp only [Run.step, hres]; exact h3
      · simp only [Run.step, hres, hacc, List.append_assoc, List.singleton_append]

/-- A sequence of calls keeps the invariant and the history. -/
theorem exec_inv {k : Nat} (ops : List (Op T)) (r : Run T) (live : List T)
    (h : Inv k r.queue live) (hacc : r.accepted = r.delivered ++ live) :
    ∃ live1, Inv k (r.exec ops).queue live1 ∧
      (r.exec ops).accepted = (r.exec ops).delivered ++ live1 := by
  induction ops generalizing r live with
  | nil => exact ⟨live, h, hacc⟩
  | cons op ops ih =>
    obtain ⟨live1, h1, hacc1⟩ := step_inv r live h hacc op
    exact ih (r.step op) live1 h1 hacc1


/-- Every run from a queue of capacity `2 ^ k` freshly constructed without
wrap of the allocation size ends in a state that satisfies the invariant for
the accepted values not yet delivered. -/
theorem run_inv {sizeofT : Nat} {alloc : Nat → Bool} {k : Nat} (hk : k < 64)
    (hw : NoWrap sizeofT (2 ^ k)) {q0 : SPSCQueue T}
    (hq : construct sizeofT alloc (2 ^ k) = Constructed.ok q0) (data : T)
    (ops : List (Op T)) :
    ∃ live, Inv k ((Run.start q0 data).exec ops).queue live ∧
      ((Run.start q0 data).exec ops).accepted =
        ((Run.start q0 data).exec ops).delivered ++ live :=
  exec_inv ops (Run.start q0 data) [] (construct_inv hk hw hq) rfl

/-- Every queue reachable from a construction without wrap satisfies the
invariant for some capacity and some list of live elements. -/
theorem reachable_inv {q : SPSCQueue T} (h : ReachableNoWrap q) :
    ∃ k live, Inv k q live := by
  obtain ⟨sizeofT, alloc, k, q0, data, ops, hk, hw, hq, rfl⟩ := h
  obtain ⟨live, hinv, _⟩ := run_inv hk hw hq data ops
  exact ⟨k, live, hinv⟩

/-- A queue reachable from a construction without wrap is reachable. -/
theorem ReachableNoWrap.reachable {q : SPSCQueue T} (h : ReachableNoWrap q) :
    Reachable q := by
  obtain ⟨sizeofT, alloc, k, q0, data, ops, hk, _, hq, hr⟩ := h
  exact ⟨sizeofT, alloc, k, q0, data, ops, hk, hq, hr⟩

/-- The queue after an `emplace` call recorded by `Run.step`. -/
theorem step_emplace_queue (r : Run T) (v : T) :
    (r.step (Op.emplace v)).queue = (emplace r.queue v).2 := by
  rcases hres : emplace r.queue v with ⟨b, q1⟩
  cases b <;> simp only [Run.step, hres]

/-- A `push` call leads from a reachable queue to a reachable queue: on the
queue it is an `emplace` call. -/
theorem reachable_push {q : SPSCQueue T} (h : Reachable q) (v : T) :
    Reachable (push q v).2 := by
  obtain ⟨sizeofT, alloc, k, q0, data, ops, hk, hq, rfl⟩ := h
  refine ⟨sizeofT, alloc, k, q0, data, ops ++ [Op.emplace v], hk, hq, ?_⟩
  simp only [Run.exec, List.foldl_append, List.foldl_cons, List.foldl_nil, step_emplace_queue,
    push]

/-! ## Consequences of the invariant -/

/-- Under the invariant `size` returns the number of live elements. -/
theorem Inv.size_eq {k : Nat} {q : SPSCQueue T} {live : List T} (h : Inv k q live) :
    q.size = live.length := by
  have hb := pow_bounds k h.hk
  have d1 := dist_cases (2 ^ k) q.head_ q.tail_ h.head_lt h.tail_lt
  have hcnt := h.count
  have hh := h.head_lt
  have ht := h.tail_lt
  have hm := h.mask
  unfold size SIZE_MOD
  simp only [hm]
  generalize 2 ^ k = c at *
  norm_num at hb ⊢
  split_ifs <;> omega

/-- Under the invariant the slot of index `j` holds the live element whose
offset from `head_` is the distance from `head_` to `j`, or none. -/
theorem Inv.slot_at {k : Nat} {q : SPSCQueue T} {live : List T} (h : Inv k q live)
    (j : Nat) (hj : j < 2 ^ k) :
    q.buffer_[j]? = some (live[dist (2 ^ k) q.head_ j]?) := by
  have hb := pow_bounds k h.hk
  have := h.slots (dist (2 ^ k) q.head_ j) (dist_lt _ _ _ hb.1)
  rwa [add_dist _ _ _ h.head_lt hj] at this

/-- Under the invariant the slots from `head_` to `tail_` hold the live
elements, in order. -/
theorem Inv.liveSlots_eq {k : Nat} {q : SPSCQueue T} {live : List T} (h : Inv k q live) :
    liveSlots q = live.map some := by
  have hb := pow_bounds k h.hk
  have hlt := h.length_lt
  unfold liveSlots
  rw [h.size_eq, h.mask, Nat.sub_add_cancel hb.1]
  apply List.ext_getElem?
  intro i
  by_cases hi : i < live.length
  · rw [List.getElem?_map, List.getElem?_map, List.getElem?_range hi, Option.map_some',
      h.slots i (by omega), Option.join, List.getElem?_eq_getElem hi, Option.map_some']
    rfl
  · rw [List.getElem?_eq_none (by simp; omega), List.getElem?_eq_none (by simp; omega)]

/-- With no live element every slot holds none. -/
theorem Inv.all_none {k : Nat} {q : SPSCQueue T} (h : Inv k q []) :
    ∀ s ∈ q.buffer_, s = none := by
  intro s hs
  obtain ⟨j, hj, rfl⟩ := List.getElem_of_mem hs
  have := h.slot_at j (by rw [← h.len]; exact hj)
  rw [List.getElem?_eq_getElem hj] at this
  simpa using this

/-- Under the invariant the queue is empty exactly when no element is live. -/
theorem Inv.head_eq_tail_iff {k : Nat} {q : SPSCQueue T} {live : List T} (h : Inv k q live) :
    q.head_ = q.tail_ ↔ live = [] := by
  have hcnt := h.count
  constructor
  · intro e
    rw [← e, dist_self _ _ h.head_lt] at hcnt
    exact List.length_eq_zero.1 hcnt.symm
  · intro e
    rw [e, List.length_nil] at hcnt
    exact dist_eq_zero _ _ _ h.head_lt h.tail_lt hcnt

/-! ## The drain loop of the destructor -/

/-- On a queue that satisfies the invariant the drain loop exits once it
has more fuel than there are live elements.  It has then popped every live
element, run the destructor on their slots in order, and left a queue with
no live element. -/
theorem drain_spec {k : Nat} (live : List T) :
    ∀ (q : SPSCQueue T) (data : T) (fuel : Nat), Inv k q live → live.length < fuel →
      ∃ r, drain fuel q data = some r ∧ r.pops = live.length ∧
        r.destructed =
          (List.range live.length).map (fun i => ((q.head_ + i) % 2 ^ k, live[i]?)) ∧
        Inv k r.queue [] := by
  induction live with
  | nil =>
    intro q data fuel h hf
    obtain ⟨f, rfl⟩ : ∃ f, fuel = f + 1 := ⟨fuel - 1, by simp at hf; omega⟩
    refine ⟨{ pops := 0, destructed := [], data := data, queue := q }, ?_, rfl, rfl, h⟩
    simp only [drain, pop_nil h data]
  | cons x rest ih =>
    intro q data fuel h hf
    obtain ⟨f, rfl⟩ : ∃ f, fuel = f + 1 := ⟨fuel - 1, by simp at hf; omega⟩
    obtain ⟨h1, h2, h3, h4, h5⟩ := pop_cons h data
    rcases hres : pop q data with ⟨b, d1, q1⟩
    rw [hres] at h1 h2 h3 h5
    simp only at h1 h2 h3 h5
    subst h1 h2
    obtain ⟨r, hr, hp, hd, hi⟩ := ih q1 d1 f h3 (by simp at hf; omega)
    refine ⟨{ r with pops := r.pops + 1,
                     destructed := (q.head_, (q.buffer_[q.head_]?).join) :: r.destructed },
      ?_, ?_, ?_, hi⟩
    · simp only [drain, hres, hr]
    · simp only [hp, List.length_cons]
    · simp only [hd, h4, h5, List.length_cons, List.range_succ_eq_map, List.map_cons,
        List.map_map, Nat.add_zero, Nat.mod_eq_of_lt h.head_lt, Option.join]
      refine congrArg₂ List.cons (by simp) (List.map_congr_left ?_)
      intro i _
      simp only [Function.comp, Nat.mod_add_mod, List.getElem?_cons_succ]
      rw [Nat.add_assoc, Nat.add_comm 1 i]


/-! ## Reachability of the concrete queues -/

/-- The constructor builds `fresh4` for capacity 4 and a payload of 8 bytes. -/
theorem fresh4_constructed : construct 8 allocAlways (2 ^ 2) = Constructed.ok fresh4 := rfl

/-- The fresh queue is reachable, by the empty sequence of calls. -/
theorem fresh4_reachable : Reachable fresh4 :=
  ⟨8, allocAlways, 2, fresh4, 0, [], by decide, rfl, rfl⟩

/-- The calls `fill3` lead from `fresh4` to `full4`. -/
theorem full4_reachable : Reachable full4 :=
  ⟨8, allocAlways, 2, fresh4, 0, fill3, by decide, rfl, rfl⟩

/-- The calls `wrapOps` lead from `fresh4` to `wrapped4`. -/
theorem wrapped4_reachable : Reachable wrapped4 :=
  ⟨8, allocAlways, 2, fresh4, 0, wrapOps, by decide, rfl, rfl⟩

/-- The calls `staleOps` lead from `fresh4` to `stale4`. -/
theorem stale4_reachable : Reachable stale4 :=
  ⟨8, allocAlways, 2, fresh4, 0, staleOps, by decide, rfl, rfl⟩

/-- The queue `wrapped4` is reachable from a construction without wrap. -/
theorem wrapped4_reachableNoWrap : ReachableNoWrap wrapped4 :=
  ⟨8, allocAlways, 2, fresh4, 0, wrapOps, by decide, by decide, rfl, rfl⟩

/-- The constructor builds `overflow62` for capacity `2 ^ 62` and a payload
of 4 bytes: the allocation size wraps to 0. -/
theorem overflow62_constructed :
    construct 4 allocAlways (2 ^ 62) = Constructed.ok overflow62 := by
  rfl

/-- The queue `overflow62` is reachable. -/
theorem overflow62_reachable : Reachable overflow62 :=
  ⟨4, allocAlways, 62, overflow62, 0, [], by decide, by rfl, rfl⟩

/-- One `emplace` leads from `overflow62` to `overflow62one`. -/
theorem overflow62one_reachable : Reachable overflow62one :=
  ⟨4, allocAlways, 62, overflow62, 0, [Op.emplace 1], by decide, by rfl, by rfl⟩

/-! ## Properties of the queue -/

/-- C2.  On every reachable queue that is full, that is, whose
`(tail_ + 1) mod capacity` equals `head_`, the queue holds `capacity - 1`
live elements, `emplace` returns `false`, and it leaves `head_`, `tail_` and
every slot unchanged (indeed the whole queue). -/
theorem emplace_full (q : SPSCQueue T) (hr : Reachable q)
    (hfull : (q.tail_ + 1) % (q.capacityMask_ + 1) = q.head_) (v : T) :
    q.size = q.capacity ∧ (emplace q v).1 = false ∧
      (emplace q v).2.head_ = q.head_ ∧ (emplace q v).2.tail_ = q.tail_ ∧
      (emplace q v).2.buffer_ = q.buffer_ ∧ (emplace q v).2 = q := by
  obtain ⟨k, n, h⟩ := reachable_cinv hr
  have hn : n + 1 = 2 ^ k := h.full_iff.1 hfull
  have e := (emplace_cspec h v).2 (by omega)
  rw [e]
  refine ⟨?_, rfl, rfl, rfl, rfl, rfl⟩
  rw [h.size_count, capacity, h.mask]
  omega

/-- The full capacity-4 queue refuses a fourth value and stays as it is. -/
theorem emplace_full_witness :
    Reachable full4 ∧ (full4.tail_ + 1) % (full4.capacityMask_ + 1) = full4.head_ ∧
    (full4.size = full4.capacity ∧ (emplace full4 13).1 = false ∧
      (emplace full4 13).2.head_ = full4.head_ ∧ (emplace full4 13).2.tail_ = full4.tail_ ∧
      (emplace full4 13).2.buffer_ = full4.buffer_ ∧ (emplace full4 13).2 = full4) :=
  ⟨full4_reachable, by decide, emplace_full full4 full4_reachable (by decide) 13⟩

/-- C3.  On every reachable queue that is empty (`head_` equals `tail_`),
`pop` returns `false`, leaves the caller's output value as it was, and
leaves the whole queue unchanged: both cursors, both cached cursors and
every slot. -/
theorem pop_empty (q : SPSCQueue T) (hr : Reachable q) (hempty : q.head_ = q.tail_)
    (data : T) :
    (pop q data).1 = false ∧ (pop q data).2.1 = data ∧ (pop q data).2.2 = q := by
  obtain ⟨k, n, h⟩ := reachable_cinv hr
  have e : n = 0 := h.meet_iff.1 hempty
  subst e
  rw [pop_czero h data]
  exact ⟨rfl, rfl, rfl⟩

/-- The fresh capacity-4 queue delivers nothing and stays as it is. -/
theorem pop_empty_witness :
    Reachable fresh4 ∧ fresh4.head_ = fresh4.tail_ ∧
    ((pop fresh4 7).1 = false ∧ (pop fresh4 7).2.1 = 7 ∧ (pop fresh4 7).2.2 = fresh4) :=
  ⟨fresh4_reachable, rfl, pop_empty fresh4 fresh4_reachable rfl 7⟩

/-- C5.  For every power-of-two capacity `2 ^ k` and every finite sequence of
`emplace` and `pop` calls on the freshly constructed queue, the number of
live elements, successful emplaces minus successful pops, is at most
`2 ^ k - 1` in the state reached. -/
theorem live_count_bound (sizeofT : Nat) (alloc : Nat → Bool) (k : Nat) (hk : k < 64)
    (q0 : SPSCQueue T) (hq : construct sizeofT alloc (2 ^ k) = Constructed.ok q0)
    (data : T) (ops : List (Op T)) :
    ((Run.start q0 data).exec ops).delivered.length ≤
      ((Run.start q0 data).exec ops).accepted.length ∧
    ((Run.start q0 data).exec ops).accepted.length -
      ((Run.start q0 data).exec ops).delivered.length ≤ 2 ^ k - 1 := by
  obtain ⟨n, hinv, hacc⟩ := run_cinv hk hq data ops
  have hlt := hinv.lt
  rw [hacc]
  omega

/-- The bound on the capacity-4 queue after the calls `mixedOps`. -/
theorem live_count_bound_witness :
    2 < 64 ∧ construct 8 allocAlways (2 ^ 2) = Constructed.ok fresh4 ∧
    (((Run.start fresh4 0).exec mixedOps).delivered.length ≤
      ((Run.start fresh4 0).exec mixedOps).accepted.length ∧
    ((Run.start fresh4 0).exec mixedOps).accepted.length -
      ((Run.start fresh4 0).exec mixedOps).delivered.length ≤ 2 ^ 2 - 1) :=
  ⟨by decide, rfl, live_count_bound 8 allocAlways 2 (by decide) fresh4 rfl 0 mixedOps⟩


/-- With `capacityMask_ = 3` the source's `(x + 1) & capacityMask_` is the
successor modulo 4. -/
theorem next_mask3 (x : Nat) (hx : x < 4) : ((x + 1) % SIZE_MOD) &&& 3 = (x + 1) % 4 :=
  next_eq 2 x (by decide) hx

/-- C6 (concrete scenario).  On the queue constructed with capacity 4, the
allocation of its four slots having succeeded without wrap, for any four
values `A`, `B`, `C`, `D` and any initial output value `d`: emplacing
`A`, `B`, `C` returns `true` each time; emplacing `D` returns `false` and
leaves the queue as it was; `pop` returns `true` with `A`; emplacing `D`
now returns `true`; the next three pops return `true` with `B`, `C`, `D`;
one more `pop` returns `false` and leaves the output and the queue as they
were. -/
theorem scenario_capacity4 (sizeofT : Nat) (alloc : Nat → Bool) (hw : NoWrap sizeofT 4)
    (ha : alloc (sizeofT * 4) = true) (A B C D d : T) :
    ∃ q0 q1 q2 q3 q4 q5 q6 q7 q8 : SPSCQueue T,
      construct sizeofT alloc 4 = Constructed.ok q0 ∧
      emplace q0 A = (true, q1) ∧ emplace q1 B = (true, q2) ∧ emplace q2 C = (true, q3) ∧
      emplace q3 D = (false, q3) ∧
      pop q3 d = (true, A, q4) ∧
      emplace q4 D = (true, q5) ∧
      pop q5 A = (true, B, q6) ∧ pop q6 B = (true, C, q7) ∧ pop q7 C = (true, D, q8) ∧
      pop q8 D = (false, D, q8) := by
  have n0 := next_mask3 0 (by decide)
  have n1 := next_mask3 1 (by decide)
  have n2 := next_mask3 2 (by decide)
  have n3 := next_mask3 3 (by decide)
  simp only [Nat.zero_add, Nat.reduceAdd, Nat.reduceMod] at n0 n1 n2 n3
  refine ⟨SPSCQueue.mk 3 [none, none, none, none] 0 0 0 0,
    SPSCQueue.mk 3 [some A, none, none, none] 0 0 1 0,
    SPSCQueue.mk 3 [some A, some B, none, none] 0 0 2 0,
    SPSCQueue.mk 3 [some A, some B, some C, none] 0 0 3 0,
    SPSCQueue.mk 3 [none, some B, some C, none] 1 0 3 3,
    SPSCQueue.mk 3 [none, some B, some C, some D] 1 1 0 3,
    SPSCQueue.mk 3 [none, none, some C, some D] 2 1 0 3,
    SPSCQueue.mk 3 [none, none, none, some D] 3 1 0 3,
    SPSCQueue.mk 3 [none, none, none, none] 0 1 0 0, ?_, ?_, ?_, ?_, ?_, ?_, ?_, ?_, ?_, ?_, ?_⟩
  · have hb : (sizeofT * 4) % SIZE_MOD = sizeofT * 4 := Nat.mod_eq_of_lt hw.2
    have hs : sizeofT * 4 / sizeofT = 4 := Nat.mul_div_cancel_left 4 hw.1
    have hm : (4 + SIZE_MOD - 1) % SIZE_MOD = 3 := by decide
    have hl : 4 &&& 3 = 0 := by decide
    unfold construct
    simp only [hb, hs, hm, hl, ha, ne_eq, not_true_eq_false, if_false, Bool.true_eq_false]
    rfl
  all_goals simp [emplace, pop, moveOut, n0, n1, n2, n3]

/-- The scenario on a queue of capacity 4 over `Nat`, for a payload of 8
bytes and the values 10, 11, 12, 13. -/
theorem scenario_capacity4_witness :
    NoWrap 8 4 ∧ allocAlways (8 * 4) = true ∧
    ∃ q0 q1 q2 q3 q4 q5 q6 q7 q8 : SPSCQueue Nat,
      construct 8 allocAlways 4 = Constructed.ok q0 ∧
      emplace q0 10 = (true, q1) ∧ emplace q1 11 = (true, q2) ∧
      emplace q2 12 = (true, q3) ∧
      emplace q3 13 = (false, q3) ∧
      pop q3 0 = (true, 10, q4) ∧
      emplace q4 13 = (true, q5) ∧
      pop q5 10 = (true, 11, q6) ∧ pop q6 11 = (true, 12, q7) ∧ pop q7 12 = (true, 13, q8) ∧
      pop q8 13 = (false, 13, q8) :=
  ⟨by decide, rfl, scenario_capacity4 8 allocAlways (by decide) rfl 10 11 12 13 0⟩

/-- C8 as stated fails: `push` returns `void`, so whatever a caller reads off
its result is the same for a full queue and for a queue with room, while
`emplace` returns `false` on the first and `true` on the second.  No
boolean read from the result of `push` agrees with `emplace` on both. -/
theorem push_reports_no_boolean :
    ¬ ∃ report : Unit → Bool,
      report (push full4 13).1 = (emplace full4 13).1 ∧
      report (push fresh4 13).1 = (emplace fresh4 13).1 := by
  rintro ⟨report, h1, h2⟩
  have e1 : (emplace full4 13).1 = false := rfl
  have e2 : (emplace fresh4 13).1 = true := rfl
  rw [e1] at h1
  rw [e2] at h2
  have : (push full4 13).1 = (push fresh4 13).1 := rfl
  rw [this, h2] at h1
  exact Bool.noConfusion h1

/-- C8 amended.  For every queue and every value, `push` has exactly the
effect of `emplace` on the queue, and it returns nothing: its result is the
same whatever the queue and the value, so the boolean of `emplace` is not
reported. -/
theorem push_effect (q : SPSCQueue T) (v : T) :
    (push q v).2 = (emplace q v).2 ∧
      ∀ (q1 : SPSCQueue T) (v1 : T), (push q v).1 = (push q1 v1).1 :=
  ⟨rfl, fun _ _ => rfl⟩

/-- The distance on the ring as an integer remainder. -/
theorem dist_int (c h t : Nat) (hh : h < c) :
    ((dist c h t : Nat) : Int) = ((t : Int) - (h : Int)) % (c : Int) := by
  unfold dist
  rw [Int.natCast_mod, Nat.cast_sub (by omega), Nat.cast_add]
  rw [show (t : Int) + (c : Int) - (h : Int) = ((t : Int) - (h : Int)) + (c : Int) by ring,
    Int.add_emod_self]

/-- C9.  In every state reached from a freshly constructed queue of capacity
`2 ^ k` by a finite sequence of `emplace` and `pop` calls, `size` returns the
number of live elements, successful emplaces minus successful pops, and
that number is `(tail_ - head_) mod 2 ^ k`, the remainder taken in the
integers so that it is right also when `tail_` is below `head_`. -/
theorem size_exact (sizeofT : Nat) (alloc : Nat → Bool) (k : Nat) (hk : k < 64)
    (q0 : SPSCQueue T) (hq : construct sizeofT alloc (2 ^ k) = Constructed.ok q0)
    (data : T) (ops : List (Op T)) :
    ((Run.start q0 data).exec ops).delivered.length ≤
      ((Run.start q0 data).exec ops).accepted.length ∧
    ((Run.start q0 data).exec ops).queue.size =
      ((Run.start q0 data).exec ops).accepted.length -
        ((Run.start q0 data).exec ops).delivered.length ∧
    ((((Run.start q0 data).exec ops).queue.size : Nat) : Int) =
      ((((Run.start q0 data).exec ops).queue.tail_ : Int) -
        (((Run.start q0 data).exec ops).queue.head_ : Int)) % (((2 ^ k : Nat) : Int)) := by
  obtain ⟨n, hinv, hacc⟩ := run_cinv hk hq data ops
  refine ⟨by omega, ?_, ?_⟩
  · rw [hinv.size_count]; omega
  · rw [hinv.size_count, ← hinv.count]
    exact dist_int _ _ _ hinv.head_lt

/-- The size of the capacity-4 queue after `wrapOps`, where `tail_ = 0` is
below `head_ = 1`: three live elements. -/
theorem size_exact_witness :
    2 < 64 ∧ construct 8 allocAlways (2 ^ 2) = Constructed.ok fresh4 ∧
    ((Run.start fresh4 0).exec wrapOps).queue.tail_ <
      ((Run.start fresh4 0).exec wrapOps).queue.head_ ∧
    ((Run.start fresh4 0).exec wrapOps).queue.size = 3 ∧
    (((Run.start fresh4 0).exec wrapOps).delivered.length ≤
      ((Run.start fresh4 0).exec wrapOps).accepted.length ∧
    ((Run.start fresh4 0).exec wrapOps).queue.size =
      ((Run.start fresh4 0).exec wrapOps).accepted.length -
        ((Run.start fresh4 0).exec wrapOps).delivered.length ∧
    ((((Run.start fresh4 0).exec wrapOps).queue.size : Nat) : Int) =
      ((((Run.start fresh4 0).exec wrapOps).queue.tail_ : Int) -
        (((Run.start fresh4 0).exec wrapOps).queue.head_ : Int)) % (((2 ^ 2 : Nat) : Int))) :=
  ⟨by decide, rfl, by decide, rfl,
    size_exact 8 allocAlways 2 (by decide) fresh4 rfl 0 wrapOps⟩

/-- C10.  On every reachable queue, `empty` returns `true` exactly when
`head_` equals `tail_`, which is exactly when `size` returns 0; where the
allocation size did not wrap, that is exactly when no slot holds a live
element; and the queue the constructor builds for a power-of-two capacity
is empty. -/
theorem empty_iff (q : SPSCQueue T) (hr : Reachable q) :
    (q.empty = true ↔ q.head_ = q.tail_) ∧ (q.head_ = q.tail_ ↔ q.size = 0) ∧
    (ReachableNoWrap q → (q.size = 0 ↔ ∀ s ∈ q.buffer_, s = none)) ∧
    (∀ (sizeofT : Nat) (alloc : Nat → Bool) (k : Nat) (q0 : SPSCQueue T), k < 64 →
      construct sizeofT alloc (2 ^ k) = Constructed.ok q0 →
      q0.empty = true ∧ q0.size = 0) := by
  obtain ⟨k, n, hc⟩ := reachable_cinv hr
  refine ⟨by unfold empty; exact decide_eq_true_iff, ?_, ?_, ?_⟩
  · rw [hc.meet_iff, hc.size_count]
  · intro hnw
    obtain ⟨k1, live, h⟩ := reachable_inv hnw
    have hb := pow_bounds k1 h.hk
    rw [h.size_eq, List.length_eq_zero]
    constructor
    · intro e
      subst e
      exact h.all_none
    · intro hall
      cases live with
      | nil => rfl
      | cons x rest =>
        have h0 := h.slots 0 hb.1
        rw [Nat.add_zero, Nat.mod_eq_of_lt h.head_lt] at h0
        have hm := List.getElem?_mem h0
        have := hall _ hm
        simp at this
  · intro sizeofT alloc k1 q0 hk1 hq0
    have hinv := construct_cinv hk1 hq0
    refine ⟨?_, hinv.size_count⟩
    unfold empty
    exact decide_eq_true (hinv.meet_iff.2 rfl)

/-- The equivalences on the wrapped capacity-4 queue, which is not empty. -/
theorem empty_iff_witness :
    Reachable wrapped4 ∧
    ((wrapped4.empty = true ↔ wrapped4.head_ = wrapped4.tail_) ∧
    (wrapped4.head_ = wrapped4.tail_ ↔ wrapped4.size = 0) ∧
    (ReachableNoWrap wrapped4 → (wrapped4.size = 0 ↔ ∀ s ∈ wrapped4.buffer_, s = none)) ∧
    (∀ (sizeofT : Nat) (alloc : Nat → Bool) (k : Nat) (q0 : SPSCQueue Nat), k < 64 →
      construct sizeofT alloc (2 ^ k) = Constructed.ok q0 →
      q0.empty = true ∧ q0.size = 0)) :=
  ⟨wrapped4_reachable, empty_iff wrapped4 wrapped4_reachable⟩

/-- C4, the failing input.  The constructor accepts capacity 0 whenever the
allocation of its 0 bytes returns storage: in `size_t` arithmetic `0 - 1` is
`2 ^ 64 - 1`, and `0 & (2 ^ 64 - 1)` is 0, so the test
`(capacity & capacityMask_) != 0` does not throw.  The queue it builds has no
slot at all and the mask `2 ^ 64 - 1`. -/
theorem construct_zero_succeeds (sizeofT : Nat) (alloc : Nat → Bool)
    (ha : alloc 0 = true) :
    (construct sizeofT alloc 0 : Constructed T) =
      Constructed.ok (SPSCQueue.mk (2 ^ 64 - 1) [] 0 0 0 0) := by
  have hm : (0 + SIZE_MOD - 1) % SIZE_MOD = 2 ^ 64 - 1 := by decide
  unfold construct
  simp only [Nat.mul_zero, Nat.zero_mod, Nat.zero_div, hm, ha, Nat.zero_and, ne_eq,
    not_true_eq_false, if_false, Bool.true_eq_false, List.replicate_zero]

/-- Capacity 0 with a payload of 8 bytes and an allocator that returns
storage. -/
theorem construct_zero_succeeds_witness :
    allocAlways 0 = true ∧
    (construct 8 allocAlways 0 : Constructed Nat) =
      Constructed.ok (SPSCQueue.mk (2 ^ 64 - 1) [] 0 0 0 0) :=
  ⟨rfl, construct_zero_succeeds 8 allocAlways rfl⟩

/-- A positive number that shares no bit with its predecessor is a power of
two. -/
theorem pow2_of_land_pred (c : Nat) (hc : 0 < c) (h : c &&& (c - 1) = 0) : ∃ k, c = 2 ^ k := by
  induction c using Nat.strong_induction_on with
  | _ c ih =>
    by_cases h1 : c = 1
    · exact ⟨0, by rw [h1]; rfl⟩
    · have hd : (c &&& (c - 1)) / 2 = c / 2 &&& (c - 1) / 2 := Nat.and_div_two
      rw [h] at hd
      rcases Nat.mod_two_eq_zero_or_one c with hm | hm
      · have e : (c - 1) / 2 = c / 2 - 1 := by omega
        rw [e] at hd
        obtain ⟨k, hk⟩ := ih (c / 2) (by omega) (by omega) hd.symm
        exact ⟨k + 1, by rw [Nat.pow_succ, ← hk]; omega⟩
      · have e : (c - 1) / 2 = c / 2 := by omega
        rw [e, Nat.and_self] at hd
        omega

/-- The capacities the constructor accepts when the allocator returns
storage: 0 and the powers of two. -/
theorem construct_succeeds_iff (sizeofT : Nat) (alloc : Nat → Bool) (c : Nat)
    (hc : c < SIZE_MOD) (ha : alloc ((sizeofT * c) % SIZE_MOD) = true) :
    (∃ q : SPSCQueue T, construct sizeofT alloc c = Constructed.ok q) ↔
      (c = 0 ∨ ∃ k, c = 2 ^ k) := by
  by_cases h0 : c = 0
  · subst h0
    have hm : (0 + SIZE_MOD - 1) % SIZE_MOD = 2 ^ 64 - 1 := by decide
    refine ⟨fun _ => Or.inl rfl, fun _ => ⟨SPSCQueue.mk (2 ^ 64 - 1) [] 0 0 0 0, ?_⟩⟩
    unfold construct
    simp only [Nat.mul_zero, Nat.zero_mod, Nat.zero_div, hm, Nat.zero_and, ne_eq,
      not_true_eq_false, if_false, List.replicate_zero] at ha ⊢
    simp only [ha, Bool.true_eq_false, if_false]
  · have hmask : (c + SIZE_MOD - 1) % SIZE_MOD = c - 1 := by
      unfold SIZE_MOD at hc ⊢
      omega
    unfold construct
    simp only [hmask, ha, Bool.true_eq_false, if_false]
    constructor
    · rintro ⟨q, hq⟩
      by_cases hl : c &&& (c - 1) = 0
      · exact Or.inr (pow2_of_land_pred c (by omega) hl)
      · rw [if_pos hl] at hq
        exact Constructed.noConfusion hq
    · rintro (h | ⟨k, rfl⟩)
      · exact absurd h h0
      · have hl : 2 ^ k &&& (2 ^ k - 1) = 0 := by
          rw [Nat.and_pow_two_sub_one_eq_mod, Nat.mod_self]
        exact ⟨_, by rw [if_neg (by simp [hl])]⟩

/-- When the allocator throws, construction fails with `std::bad_alloc`,
whatever the capacity. -/
theorem construct_bad_alloc (sizeofT : Nat) (alloc : Nat → Bool) (c : Nat)
    (ha : alloc ((sizeofT * c) % SIZE_MOD) = false) :
    (construct sizeofT alloc c : Constructed T) = Constructed.bad_alloc := by
  unfold construct
  simp only [ha, if_true]

/-! ## Reports, cached cursors and frames -/

/-- C14.  In every reachable state the cached cursors cause no false report,
however stale they are: `emplace` returns `false` exactly when the queue is
really full, `(tail_ + 1) mod capacity` being the authoritative `head_`,
and `pop` returns `false` exactly when it is really empty, `head_` being
the authoritative `tail_`. -/
theorem no_false_report (q : SPSCQueue T) (hr : Reachable q) (v data : T) :
    ((emplace q v).1 = false ↔ (q.tail_ + 1) % (q.capacityMask_ + 1) = q.head_) ∧
    ((pop q data).1 = false ↔ q.head_ = q.tail_) := by
  obtain ⟨k, n, h⟩ := reachable_cinv hr
  exact ⟨by rw [h.emplace_false_iff, h.full_iff], by rw [h.pop_false_iff, h.meet_iff]⟩

/-- The reports on `stale4`, where `(tail_ + 1) mod 4 = 0` equals the stale
`headCached_ = 0` but not `head_ = 1`: `emplace` returns `true`. -/
theorem no_false_report_witness :
    Reachable stale4 ∧ stale4.headCached_ ≠ stale4.head_ ∧ (emplace stale4 13).1 = true ∧
    (((emplace stale4 13).1 = false ↔
        (stale4.tail_ + 1) % (stale4.capacityMask_ + 1) = stale4.head_) ∧
      ((pop stale4 0).1 = false ↔ stale4.head_ = stale4.tail_)) :=
  ⟨stale4_reachable, by decide, rfl, no_false_report stale4 stale4_reachable 13 0⟩

/-- With a mask `2 ^ k - 1` of at most 64 bits, the source's
`(x + 1) & capacityMask_` is the successor modulo `capacityMask_ + 1`. -/
theorem next_mask (k x mask : Nat) (hk : k ≤ 64) (hm : mask = 2 ^ k - 1) :
    ((x + 1) % SIZE_MOD) &&& mask = (x + 1) % (mask + 1) := by
  have hpos : 0 < 2 ^ k := Nat.pos_pow_of_pos k (by decide)
  rw [hm, Nat.sub_add_cancel hpos, Nat.and_pow_two_sub_one_eq_mod]
  exact Nat.mod_mod_of_dvd _ (Nat.pow_dvd_pow 2 hk)

/-- C16.  Cached cursors are refreshed only on demand.  For every queue state
whose mask is `2 ^ k - 1`, the capacity being `capacityMask_ + 1`: `emplace`
leaves `headCached_` as it is when `(tail_ + 1) mod capacity` differs from
it on entry, and sets it to `head_` otherwise; `pop` leaves `tailCached_` as
it is when `head_` differs from it on entry, and sets it to `tail_`
otherwise. -/
theorem cache_refresh_on_demand (k : Nat) (hk : k ≤ 64) (q : SPSCQueue T)
    (hmask : q.capacityMask_ = 2 ^ k - 1) (v data : T) :
    ((q.tail_ + 1) % (q.capacityMask_ + 1) ≠ q.headCached_ →
      (emplace q v).2.headCached_ = q.headCached_) ∧
    ((q.tail_ + 1) % (q.capacityMask_ + 1) = q.headCached_ →
      (emplace q v).2.headCached_ = q.head_) ∧
    (q.head_ ≠ q.tailCached_ → (pop q data).2.2.tailCached_ = q.tailCached_) ∧
    (q.head_ = q.tailCached_ → (pop q data).2.2.tailCached_ = q.tail_) := by
  have hn := next_mask k q.tail_ q.capacityMask_ hk hmask
  refine ⟨?_, ?_, ?_, ?_⟩
  · intro hne
    unfold emplace
    simp only [hn, if_neg hne]
  · intro he
    unfold emplace
    simp only [hn, if_pos he]
    split <;> rfl
  · intro hne
    unfold pop
    simp only [if_neg hne]
  · intro he
    unfold pop
    simp only [if_pos he]
    split <;> rfl

/-- The refresh rule on `stale4` (refresh in `emplace`, none in `pop`). -/
theorem cache_refresh_on_demand_witness :
    2 ≤ 64 ∧ stale4.capacityMask_ = 2 ^ 2 - 1 ∧
    (((stale4.tail_ + 1) % (stale4.capacityMask_ + 1) ≠ stale4.headCached_ →
      (emplace stale4 13).2.headCached_ = stale4.headCached_) ∧
    ((stale4.tail_ + 1) % (stale4.capacityMask_ + 1) = stale4.headCached_ →
      (emplace stale4 13).2.headCached_ = stale4.head_) ∧
    (stale4.head_ ≠ stale4.tailCached_ → (pop stale4 0).2.2.tailCached_ = stale4.tailCached_) ∧
    (stale4.head_ = stale4.tailCached_ → (pop stale4 0).2.2.tailCached_ = stale4.tail_)) :=
  ⟨by decide, rfl, cache_refresh_on_demand 2 (by decide) stale4 rfl 13 0⟩

/-- C17.  Single-writer ownership of the fields.  For every queue state whose
mask is `2 ^ k - 1`, the capacity being `capacityMask_ + 1`, and every
argument: `emplace` changes neither `head_` nor `tailCached_` nor the mask
nor the number of slots nor any slot other than the one at the old `tail_`,
a successful `emplace` sets `tail_` to `(tail_ + 1) mod capacity`, and a
failed one leaves `tail_` and all slots alone; `pop` changes neither `tail_`
nor `headCached_` nor the mask nor the number of slots nor any slot other
than the one at the old `head_`, a successful `pop` sets `head_` to
`(head_ + 1) mod capacity`, and a failed one leaves `head_` and all slots
alone. -/
theorem single_writer (k : Nat) (hk : k ≤ 64) (q : SPSCQueue T)
    (hmask : q.capacityMask_ = 2 ^ k - 1) (v data : T) :
    ((emplace q v).2.head_ = q.head_ ∧ (emplace q v).2.tailCached_ = q.tailCached_ ∧
      (emplace q v).2.capacityMask_ = q.capacityMask_ ∧
      (emplace q v).2.buffer_.length = q.buffer_.length ∧
      (∀ i, i ≠ q.tail_ → (emplace q v).2.buffer_[i]? = q.buffer_[i]?) ∧
      ((emplace q v).1 = true →
        (emplace q v).2.tail_ = (q.tail_ + 1) % (q.capacityMask_ + 1)) ∧
      ((emplace q v).1 = false →
        (emplace q v).2.tail_ = q.tail_ ∧ (emplace q v).2.buffer_ = q.buffer_)) ∧
    ((pop q data).2.2.tail_ = q.tail_ ∧ (pop q data).2.2.headCached_ = q.headCached_ ∧
      (pop q data).2.2.capacityMask_ = q.capacityMask_ ∧
      (pop q data).2.2.buffer_.length = q.buffer_.length ∧
      (∀ i, i ≠ q.head_ → (pop q data).2.2.buffer_[i]? = q.buffer_[i]?) ∧
      ((pop q data).1 = true →
        (pop q data).2.2.head_ = (q.head_ + 1) % (q.capacityMask_ + 1)) ∧
      ((pop q data).1 = false →
        (pop q data).2.2.head_ = q.head_ ∧ (pop q data).2.2.buffer_ = q.buffer_)) := by
  have hn := next_mask k q.tail_ q.capacityMask_ hk hmask
  have hh := next_mask k q.head_ q.capacityMask_ hk hmask
  have hset : ∀ (b : List (Option T)) (j i : Nat) (x : Option T), i ≠ j →
      (b.set j x)[i]? = b[i]? := by
    intro b j i x hij
    rw [List.getElem?_set, if_neg (Ne.symm hij)]
  constructor
  · unfold emplace
    simp only [hn]
    split_ifs
    · exact ⟨rfl, rfl, rfl, rfl, fun _ _ => rfl, fun hf => False.elim hf,
        fun _ => ⟨rfl, rfl⟩⟩
    · exact ⟨rfl, rfl, rfl, List.length_set _ _ _, fun i hi => hset _ _ _ _ hi, fun _ => rfl,
        fun hf => False.elim hf⟩
    · exact ⟨rfl, rfl, rfl, List.length_set _ _ _, fun i hi => hset _ _ _ _ hi, fun _ => rfl,
        fun hf => False.elim hf⟩
  · unfold pop
    simp only [hh]
    split_ifs
    · exact ⟨rfl, rfl, rfl, rfl, fun _ _ => rfl, fun hf => False.elim hf,
        fun _ => ⟨rfl, rfl⟩⟩
    · exact ⟨rfl, rfl, rfl, List.length_set _ _ _, fun i hi => hset _ _ _ _ hi, fun _ => rfl,
        fun hf => False.elim hf⟩
    · exact ⟨rfl, rfl, rfl, List.length_set _ _ _, fun i hi => hset _ _ _ _ hi, fun _ => rfl,
        fun hf => False.elim hf⟩

/-- The frames of `emplace` and `pop` on `stale4`. -/
theorem single_writer_witness :
    2 ≤ 64 ∧ stale4.capacityMask_ = 2 ^ 2 - 1 ∧
    (emplace stale4 13).2.tail_ = 0 ∧ (pop stale4 0).2.2.head_ = 2 ∧
    (((emplace stale4 13).2.head_ = stale4.head_ ∧
      (emplace stale4 13).2.tailCached_ = stale4.tailCached_ ∧
      (emplace stale4 13).2.capacityMask_ = stale4.capacityMask_ ∧
      (emplace stale4 13).2.buffer_.length = stale4.buffer_.length ∧
      (∀ i, i ≠ stale4.tail_ → (emplace stale4 13).2.buffer_[i]? = stale4.buffer_[i]?) ∧
      ((emplace stale4 13).1 = true →
        (emplace stale4 13).2.tail_ = (stale4.tail_ + 1) % (stale4.capacityMask_ + 1)) ∧
      ((emplace stale4 13).1 = false →
        (emplace stale4 13).2.tail_ = stale4.tail_ ∧
          (emplace stale4 13).2.buffer_ = stale4.buffer_)) ∧
    ((pop stale4 0).2.2.tail_ = stale4.tail_ ∧
      (pop stale4 0).2.2.headCached_ = stale4.headCached_ ∧
      (pop stale4 0).2.2.capacityMask_ = stale4.capacityMask_ ∧
      (pop stale4 0).2.2.buffer_.length = stale4.buffer_.length ∧
      (∀ i, i ≠ stale4.head_ → (pop stale4 0).2.2.buffer_[i]? = stale4.buffer_[i]?) ∧
      ((pop stale4 0).1 = true →
        (pop stale4 0).2.2.head_ = (stale4.head_ + 1) % (stale4.capacityMask_ + 1)) ∧
      ((pop stale4 0).1 = false →
        (pop stale4 0).2.2.head_ = stale4.head_ ∧ (pop stale4 0).2.2.buffer_ = stale4.buffer_))) :=
  ⟨by decide, rfl, rfl, rfl, single_writer 2 (by decide) stale4 rfl 13 0⟩

/-- An index lies in the cyclic range from `h` to `t` exactly when it is
fewer steps ahead of `h` than `t` is. -/
theorem inCyclicRange_iff (c h t i : Nat) (hh : h < c) (ht : t < c) :
    inCyclicRange c h t i ↔ i < c ∧ dist c h i < dist c h t := by
  unfold inCyclicRange
  constructor
  · rintro ⟨hi, hr⟩
    refine ⟨hi, ?_⟩
    rcases dist_cases c h i hh hi with a | a <;>
      rcases dist_cases c h t hh ht with b | b <;> split_ifs at hr <;> omega
  · rintro ⟨hi, hd⟩
    refine ⟨hi, ?_⟩
    rcases dist_cases c h i hh hi with a | a <;>
      rcases dist_cases c h t hh ht with b | b <;> split_ifs <;> omega

/-- The invariant gives the slot-liveness property. -/
theorem Inv.slotLiveness {k : Nat} {q : SPSCQueue T} {live : List T} (h : Inv k q live) :
    SlotLiveness q := by
  intro i
  rw [h.toCInv.cap_eq, inCyclicRange_iff _ _ _ _ h.head_lt h.tail_lt, h.count]
  by_cases hi : i < 2 ^ k
  · rw [h.slot_at i hi]
    constructor
    · intro hs
      refine ⟨hi, ?_⟩
      by_contra hn
      rw [List.getElem?_eq_none (by omega)] at hs
      simp at hs
    · rintro ⟨_, hd⟩
      rw [List.getElem?_eq_getElem hd]
      rfl
  · rw [List.getElem?_eq_none (by rw [h.len]; omega)]
    constructor
    · intro hs
      simp at hs
    · rintro ⟨hi1, _⟩
      exact absurd hi1 hi

/-- No member function changes the mask: `capacity()` returns the same value
after `emplace`, `push` and `pop`, in every state. -/
theorem capacity_unchanged (q : SPSCQueue T) (v data : T) :
    (emplace q v).2.capacity = q.capacity ∧ (push q v).2.capacity = q.capacity ∧
      (pop q data).2.2.capacity = q.capacity := by
  have he : (emplace q v).2.capacity = q.capacity := by
    unfold emplace capacity
    simp only
    split_ifs <;> rfl
  refine ⟨he, he, ?_⟩
  unfold pop capacity
  simp only
  split_ifs <;> rfl

/-- A run does not change what `capacity()` returns. -/
theorem exec_capacity (ops : List (Op T)) (r : Run T) :
    (r.exec ops).queue.capacity = r.queue.capacity := by
  induction ops generalizing r with
  | nil => rfl
  | cons op ops ih =>
    have hstep : (r.step op).queue.capacity = r.queue.capacity := by
      cases op with
      | emplace v =>
        rw [step_emplace_queue]
        exact (capacity_unchanged r.queue v v).1
      | pop =>
        have := (capacity_unchanged r.queue r.data r.data).2.2
        rcases hres : pop r.queue r.data with ⟨b, d1, q1⟩
        rw [hres] at this
        cases b <;> simpa only [Run.step, hres] using this
    exact (ih (r.step op)).trans hstep

/-- Consecutive `emplace` calls on a queue that satisfies the cursor
invariant: the values accepted are the first ones, as many as there is room
for, and every later one is refused. -/
theorem emplace_run_accepted {k : Nat} (vs : List T) :
    ∀ (r : Run T) (n : Nat), CInv k r.queue n →
      (r.exec (vs.map Op.emplace)).accepted =
        r.accepted ++ vs.take (2 ^ k - 1 - n) := by
  induction vs with
  | nil => intro r n _; simp [Run.exec]
  | cons v vs ih =>
    intro r n h
    have hs := emplace_cspec h v
    have hlt := h.lt
    by_cases hroom : n + 1 < 2 ^ k
    · obtain ⟨h1, h2⟩ := hs.1 hroom
      rcases hres : emplace r.queue v with ⟨b, q1⟩
      rw [hres] at h1 h2
      simp only at h1 h2
      subst h1
      have hstep : r.step (Op.emplace v) =
          { r with queue := q1, accepted := r.accepted ++ [v] } := by
        simp only [Run.step, hres]
      have := ih (r.step (Op.emplace v)) (n + 1) (by rw [hstep]; exact h2)
      rw [List.map_cons, Run.exec, List.foldl_cons]
      rw [Run.exec] at this
      rw [this, hstep]
      obtain ⟨m, hm⟩ : ∃ m, 2 ^ k - 1 - n = m + 1 := ⟨2 ^ k - 1 - n - 1, by omega⟩
      have hm2 : 2 ^ k - 1 - (n + 1) = m := by omega
      rw [hm, hm2, List.take_succ_cons, List.append_assoc, List.singleton_append]
    · have e := hs.2 hroom
      have hstep : r.step (Op.emplace v) = r := by
        simp only [Run.step, e]
      have := ih (r.step (Op.emplace v)) n (by rw [hstep]; exact h)
      rw [List.map_cons, Run.exec, List.foldl_cons]
      rw [Run.exec] at this
      rw [this, hstep]
      have hz : 2 ^ k - 1 - n = 0 := by omega
      rw [hz, List.take_zero, List.take_zero]

/-- The usable capacity of a queue constructed with a power of two `2 ^ k`:
`capacity()` returns `2 ^ k - 1` on the fresh queue, after every run and
after a further `push`; and of any consecutive `emplace` calls on the fresh
queue exactly the first `2 ^ k - 1` succeed. -/
theorem usable_capacity (sizeofT : Nat) (alloc : Nat → Bool) (k : Nat) (hk : k < 64)
    (q0 : SPSCQueue T) (hq : construct sizeofT alloc (2 ^ k) = Constructed.ok q0) (d : T)
    (ops : List (Op T)) (vs : List T) :
    q0.capacity = 2 ^ k - 1 ∧ ((Run.start q0 d).exec ops).queue.capacity = 2 ^ k - 1 ∧
    (∀ v : T, (push ((Run.start q0 d).exec ops).queue v).2.capacity = 2 ^ k - 1) ∧
    ((Run.start q0 d).exec (vs.map Op.emplace)).accepted = vs.take (2 ^ k - 1) := by
  have hinv0 := construct_cinv hk hq
  have hm : q0.capacity = 2 ^ k - 1 := hinv0.mask
  have hc : ((Run.start q0 d).exec ops).queue.capacity = 2 ^ k - 1 :=
    (exec_capacity ops (Run.start q0 d)).trans hm
  refine ⟨hm, hc, fun v => ?_, ?_⟩
  · rw [(capacity_unchanged _ v v).2.1, hc]
  · have := emplace_run_accepted vs (Run.start q0 d) 0 hinv0
    simpa [Run.start] using this

/-- C11, the failing input.  The queue the constructor builds for capacity 0,
the allocation of its 0 bytes having returned storage, reports
`capacity() = 2 ^ 64 - 1` but has no slot at all: an `emplace` on it
returns `true` and advances `tail_`, its construction into `buffer_[0]`
falling outside the allocation, and the storage still holds nothing. -/
theorem capacity_zero_holds_nothing (sizeofT : Nat) (alloc : Nat → Bool)
    (ha : alloc 0 = true) (v : T) :
    ∃ q0 : SPSCQueue T, construct sizeofT alloc 0 = Constructed.ok q0 ∧
      q0.capacity = 2 ^ 64 - 1 ∧
      q0.buffer_ = [] ∧ (emplace q0 v).1 = true ∧ (emplace q0 v).2.tail_ = 1 ∧
      (emplace q0 v).2.buffer_ = [] := by
  have h1 : (1 % SIZE_MOD) &&& 18446744073709551615 = 1 := by decide
  have hm : (0 + SIZE_MOD - 1) % SIZE_MOD = 18446744073709551615 := by decide
  refine ⟨SPSCQueue.mk 18446744073709551615 [] 0 0 0 0, ?_, by simp [capacity], rfl,
    ?_, ?_, ?_⟩
  · unfold construct
    simp only [Nat.mul_zero, Nat.zero_mod, Nat.zero_div, hm, ha, Nat.zero_and, ne_eq,
      not_true_eq_false, if_false, Bool.true_eq_false, List.replicate_zero]
  all_goals simp [emplace, h1]

/-- Capacity 0 with a payload of 8 bytes and an allocator that returns
storage: the queue reports a capacity of `2 ^ 64 - 1` and holds nothing. -/
theorem capacity_zero_holds_nothing_witness :
    allocAlways 0 = true ∧
    ∃ q0 : SPSCQueue Nat, construct 8 allocAlways 0 = Constructed.ok q0 ∧
      q0.capacity = 2 ^ 64 - 1 ∧
      q0.buffer_ = [] ∧ (emplace q0 7).1 = true ∧ (emplace q0 7).2.tail_ = 1 ∧
      (emplace q0 7).2.buffer_ = [] :=
  ⟨rfl, capacity_zero_holds_nothing 8 allocAlways rfl 7⟩

/-- C12, the failing input.  Capacity 3, for a payload of 8 bytes, is refused,
but when the constructor body throws, the member initialiser of `buffer_`
has already allocated the 3 slots; nothing on that path releases them. -/
theorem failed_construction_has_allocated :
    ∃ n, (construct 8 allocAlways 3 : Constructed Nat) = Constructed.invalid_argument n ∧
      n ≠ 0 :=
  ⟨3, rfl, by decide⟩

/-- What the constructor does with a capacity `c` from 1 up to the largest
`size_t` that is not a power of two, when the allocator returns storage: it
fails with the invalid-capacity error and builds no queue; the error is
thrown from the constructor body, after the member initialisers have run,
so the slots have been allocated by then, `c` of them where the allocation
size did not wrap. -/
theorem construct_invalid (sizeofT : Nat) (alloc : Nat → Bool) (c : Nat) (hpos : 0 < c)
    (hc : c < SIZE_MOD) (hn : ¬ ∃ k, c = 2 ^ k)
    (ha : alloc ((sizeofT * c) % SIZE_MOD) = true) :
    (construct sizeofT alloc c : Constructed T) =
        Constructed.invalid_argument ((sizeofT * c) % SIZE_MOD / sizeofT) ∧
      (NoWrap sizeofT c → (sizeofT * c) % SIZE_MOD / sizeofT = c) := by
  have hmask : (c + SIZE_MOD - 1) % SIZE_MOD = c - 1 := by
    unfold SIZE_MOD at hc ⊢
    omega
  have hl : c &&& (c - 1) ≠ 0 := fun h => hn (pow2_of_land_pred c hpos h)
  refine ⟨?_, slots_of_noWrap sizeofT c⟩
  unfold construct
  simp only [hmask, ha, Bool.true_eq_false, if_false, if_pos hl, List.length_replicate]

/-- The number 3 is not a power of two. -/
theorem three_not_pow2 : ¬ ∃ k, 3 = 2 ^ k := by
  rintro ⟨k, hk⟩
  cases k with
  | zero => simp at hk
  | succ n =>
    rw [Nat.pow_succ] at hk
    omega

/-- The failed construction for capacity 3 and a payload of 8 bytes, with
its 3 allocated slots. -/
theorem construct_invalid_witness :
    0 < 3 ∧ 3 < SIZE_MOD ∧ (¬ ∃ k, 3 = 2 ^ k) ∧ allocAlways ((8 * 3) % SIZE_MOD) = true ∧
    ((construct 8 allocAlways 3 : Constructed Nat) =
        Constructed.invalid_argument ((8 * 3) % SIZE_MOD / 8) ∧
      (NoWrap 8 3 → (8 * 3) % SIZE_MOD / 8 = 3)) :=
  ⟨by decide, by decide, three_not_pow2, rfl,
    construct_invalid 8 allocAlways 3 (by decide) (by decide) three_not_pow2 rfl⟩

/-- Every queue the constructor builds has a mask `2 ^ k - 1` with `k ≤ 64`:
`k < 64` for the capacity `2 ^ k`, and `k = 64` for the capacity 0. -/
theorem constructed_mask (sizeofT : Nat) (alloc : Nat → Bool) (c : Nat) (hc : c < SIZE_MOD)
    (q : SPSCQueue T) (hq : construct sizeofT alloc c = Constructed.ok q) :
    ∃ k, k ≤ 64 ∧ q.capacityMask_ = 2 ^ k - 1 := by
  have ha : alloc ((sizeofT * c) % SIZE_MOD) = true := by
    by_contra hne
    have hf : alloc ((sizeofT * c) % SIZE_MOD) = false := by simpa using hne
    rw [construct_bad_alloc sizeofT alloc c hf] at hq
    exact Constructed.noConfusion hq
  rcases (construct_succeeds_iff sizeofT alloc c hc ha).1 ⟨q, hq⟩ with h0 | ⟨k, hk⟩
  · subst h0
    have hm : (0 + SIZE_MOD - 1) % SIZE_MOD = 2 ^ 64 - 1 := by decide
    unfold construct at hq
    simp only [Nat.mul_zero, Nat.zero_mod, Nat.zero_div, hm, Nat.zero_and, ne_eq,
      not_true_eq_false, if_false, List.replicate_zero] at ha hq
    simp only [ha, Bool.true_eq_false, if_false] at hq
    have := Constructed.ok.inj hq
    exact ⟨64, Nat.le_refl _, by rw [← this]⟩
  · subst hk
    have hk64 : k < 64 := (Nat.pow_lt_pow_iff_right (by decide)).1 hc
    exact ⟨k, by omega, (construct_cinv hk64 hq).mask⟩

end SPSC
